import Mathlib

/-!
Verification of the `mcp-claude-db-query-demo` repository: a shallow
embedding of `src/client/client.py` (the `MCPClient` schema translator,
conversation loop and fallback heuristic) and of
`src/db_query_server.py` (`get_crop_info`), together with proofs and
refutations of the specification's claims about them.
-/

namespace MCPDemo

/-- JSON-like values: the shape of the tool input schemas, tool-call
arguments and contents exchanged in `client.py` (Python dicts, lists and
scalars).  A mapping is an association list with string keys, the shape a
JSON object decodes to; keys are unique in any value produced by JSON. -/
inductive JVal where
  | str (s : String)
  | int (n : Int)
  | bool (b : Bool)
  | null
  | arr (xs : List JVal)
  | obj (kvs : List (String × JVal))

/-- Python `d.get(key)` / `d[key]` on a dict represented as an association
list: first binding wins. -/
def lookup : List (String × JVal) → String → Option JVal
  | [], _ => none
  | kv :: rest, key => if kv.1 = key then some kv.2 else lookup rest key

mutual

/-- The number of constructors in a `JVal`: a computable size measure that
bounds the recursion depth of every traversal of the value. -/
def jsize : JVal → Nat
  | .str _ => 1
  | .int _ => 1
  | .bool _ => 1
  | .null => 1
  | .arr xs => 1 + jsizeL xs
  | .obj kvs => 1 + jsizeP kvs

/-- Size of a list of values. -/
def jsizeL : List JVal → Nat
  | [] => 0
  | x :: xs => jsize x + jsizeL xs

/-- Size of an association list of values. -/
def jsizeP : List (String × JVal) → Nat
  | [] => 0
  | kv :: rest => 1 + jsize kv.2 + jsizeP rest

end

/-- Python `str.upper()` on the ASCII strings handled here. -/
def pyUpper (s : String) : String := ⟨s.data.map Char.toUpper⟩

/-- Python `str.lower()` on the ASCII strings handled here. -/
def pyLower (s : String) : String := ⟨s.data.map Char.toLower⟩

/-- `charsPrefix pat l` holds when `pat` is a prefix of `l`. -/
def charsPrefix : List Char → List Char → Bool
  | [], _ => true
  | _ :: _, [] => false
  | p :: ps, h :: hs => (p = h) && charsPrefix ps hs

/-- `charsInfix pat l` holds when `pat` occurs contiguously inside `l`. -/
def charsInfix (pat : List Char) : List Char → Bool
  | [] => charsPrefix pat []
  | h :: hs => charsPrefix pat (h :: hs) || charsInfix pat hs

/-- Python `sub in s` substring containment. -/
def pyIn (sub s : String) : Bool := charsInfix sub.data s.data

/-- Python `text.split, with a newline separator, over the character list:
`"a\nb"` splits to `["a", "b"]`, and the empty string splits to `[""]`. -/
def splitNl : List Char → List (List Char)
  | [] => [[]]
  | c :: cs =>
    let rest := splitNl cs
    if c = '\n' then [] :: rest
    else
      match rest with
      | l :: ls => (c :: l) :: ls
      | [] => [[c]]

/-- `len([line for line in text.split with newline if line.strip()])`
(client.py lines 144 and 172): the number of lines of `text` containing a
non-whitespace character.  (Python strips `\x0b`/`\x0c` too; no input here
contains those.) -/
def nonEmptyLineCount (text : String) : Nat :=
  ((splitNl text.data).filter (fun l => l.any (fun c => !c.isWhitespace))).length

/-- Python `sep.join(parts)`. -/
def pyJoin (sep : String) : List String → String
  | [] => ""
  | [s] => s
  | s :: rest => s ++ sep ++ pyJoin sep rest

/-- The dict comprehension `(k, f v) for (k, v) in kvs` in the `Except`
monad, propagating the first raised error. -/
def mapPairsM (f : JVal → Except String JVal) :
    List (String × JVal) → Except String (List (String × JVal))
  | [] => pure []
  | kv :: rest => do
    let v ← f kv.2
    let vs ← mapPairsM f rest
    pure ((kv.1, v) :: vs)

/-- The list comprehension `f x for x in xs` in the `Except` monad. -/
def mapListM (f : JVal → Except String JVal) :
    List JVal → Except String (List JVal)
  | [] => pure []
  | x :: xs => do
    let y ← f x
    let ys ← mapListM f xs
    pure (y :: ys)

/-- The comprehension `{prop: f(schema['properties'][prop]) for prop in
schema.get('properties', {})}` of the `'object'` branch (client.py lines
66-69), applied to `schema.get('properties')`:

* an absent `properties` iterates the `{}` default (no entries);
* a mapping translates every entry's value with `f`, preserving keys;
* an empty list or empty string iterates zero times, leaving the result
  empty;
* any other non-mapping raises a `TypeError` when
  `schema['properties'][prop]` indexes it with an iterated element (a
  list of integers, which could index successfully in Python, cannot
  arise from a JSON schema, whose object keys are strings). -/
def filterProps (f : JVal → Except String JVal) :
    Option JVal → Except String (List (String × JVal))
  | none => pure []
  | some (.obj pkvs) => mapPairsM f pkvs
  | some (.arr xs) =>
    if xs.isEmpty then pure []
    else Except.error "TypeError: indexing non-mapping properties"
  | some (.str s) =>
    if s.isEmpty then pure []
    else Except.error "TypeError: indexing non-mapping properties"
  | some _ => Except.error "TypeError: indexing non-mapping properties"

/-- The dict branches of `MCPClient.filter_schema` (client.py lines
62-78), dispatching on `schema.get('type')`, in source order:

* `'type' in schema and schema['type'] == 'object'`: emit
  `{'type': schema['type'].upper(), 'properties': ..., 'required':
  schema.get('required', [])}` with every property translated by `f`;
* `'type' in schema` otherwise: emit `{'type': schema['type'].upper(),
  'description': schema.get('description', '')}`; a non-string `type`
  value makes `.upper()` raise `AttributeError`, modelled as `.error`;
* no `type`: translate every value with `f`, dropping `title` keys. -/
def filterTyped (f : JVal → Except String JVal) (kvs : List (String × JVal)) :
    Option JVal → Except String JVal
  | some (.str t) =>
    if t = "object" then do
      let props ← filterProps f (lookup kvs "properties")
      pure (.obj [("type", .str (pyUpper t)),
                  ("properties", .obj props),
                  ("required", (lookup kvs "required").getD (.arr []))])
    else
      pure (.obj [("type", .str (pyUpper t)),
                  ("description", (lookup kvs "description").getD (.str ""))])
  | some _ => .error "AttributeError: upper on non-string type"
  | none => do
    let out ← mapPairsM f (kvs.filter (fun kv => kv.1 != "title"))
    pure (.obj out)

/-- `MCPClient.filter_schema` (client.py lines 61-82) with an explicit
recursion-depth bound `fuel`; `fuel = jsize schema` always suffices
(`filterFuel_congr`), mirroring Python's unbounded recursion: dicts
dispatch through `filterTyped`, lists map the translation over their
elements, and every scalar passes through unchanged. -/
def filterFuel : Nat → JVal → Except String JVal
  | 0, _ => .error "recursion depth exhausted"
  | fuel + 1, schema =>
    match schema with
    | .obj kvs => filterTyped (filterFuel fuel) kvs (lookup kvs "type")
    | .arr xs => do
      let ys ← mapListM (filterFuel fuel) xs
      pure (.arr ys)
    | v => pure v

/-- `MCPClient.filter_schema` (client.py lines 61-82). -/
def filter_schema (schema : JVal) : Except String JVal :=
  filterFuel (jsize schema) schema

/-! ### Size lemmas and fuel irrelevance -/

theorem jsize_pos : ∀ v : JVal, 1 ≤ jsize v := by
  intro v; cases v <;> simp only [jsize] <;> omega

theorem jsizeP_mem : ∀ {kvs : List (String × JVal)} {kv : String × JVal},
    kv ∈ kvs → jsize kv.2 < jsizeP kvs := by
  intro kvs
  induction kvs with
  | nil => intro kv h; cases h
  | cons hd tl ih =>
    intro kv h
    rcases List.mem_cons.mp h with rfl | h
    · simp only [jsizeP]; omega
    · have := ih h; simp only [jsizeP]; omega

theorem jsizeL_mem : ∀ {xs : List JVal} {x : JVal},
    x ∈ xs → jsize x ≤ jsizeL xs := by
  intro xs
  induction xs with
  | nil => intro x h; cases h
  | cons hd tl ih =>
    intro x h
    rcases List.mem_cons.mp h with rfl | h
    · simp only [jsizeL]; omega
    · have := ih h; simp only [jsizeL]; omega

theorem jsizeP_lookup : ∀ {kvs : List (String × JVal)} {k : String} {v : JVal},
    lookup kvs k = some v → jsize v < jsizeP kvs := by
  intro kvs
  induction kvs with
  | nil => intro k v h; simp [lookup] at h
  | cons hd tl ih =>
    intro k v h
    simp only [lookup] at h
    split at h
    · injection h with h; subst h; simp only [jsizeP]; omega
    · have := ih h; simp only [jsizeP]; omega

theorem mapPairsM_congr {f g : JVal → Except String JVal} :
    ∀ {l : List (String × JVal)}, (∀ kv ∈ l, f kv.2 = g kv.2) →
      mapPairsM f l = mapPairsM g l := by
  intro l
  induction l with
  | nil => intro _; rfl
  | cons hd tl ih =>
    intro h
    simp only [mapPairsM]
    rw [h hd (List.mem_cons_self hd tl),
        ih (fun kv hkv => h kv (List.mem_cons_of_mem hd hkv))]

theorem mapListM_congr {f g : JVal → Except String JVal} :
    ∀ {l : List JVal}, (∀ x ∈ l, f x = g x) → mapListM f l = mapListM g l := by
  intro l
  induction l with
  | nil => intro _; rfl
  | cons hd tl ih =>
    intro h
    simp only [mapListM]
    rw [h hd (List.mem_cons_self hd tl),
        ih (fun x hx => h x (List.mem_cons_of_mem hd hx))]

theorem filterProps_congr {f g : JVal → Except String JVal} :
    ∀ {o : Option JVal},
      (∀ pkvs, o = some (.obj pkvs) → ∀ kv ∈ pkvs, f kv.2 = g kv.2) →
      filterProps f o = filterProps g o := by
  intro o h
  match o with
  | none => rfl
  | some (.obj pkvs) => exact mapPairsM_congr (h pkvs rfl)
  | some (.arr xs) => rfl
  | some (.str s) => rfl
  | some (.int i) => rfl
  | some (.bool b) => rfl
  | some .null => rfl

theorem filterTyped_congr {f g : JVal → Except String JVal}
    {kvs : List (String × JVal)} {o : Option JVal}
    (h1 : filterProps f (lookup kvs "properties") =
      filterProps g (lookup kvs "properties"))
    (h2 : mapPairsM f (kvs.filter (fun kv => kv.1 != "title")) =
      mapPairsM g (kvs.filter (fun kv => kv.1 != "title"))) :
    filterTyped f kvs o = filterTyped g kvs o := by
  match o with
  | some (.str t) =>
    by_cases ht : t = "object"
    · simp only [filterTyped, if_pos ht, h1]
    · simp only [filterTyped, if_neg ht]
  | some (.obj pkvs) => rfl
  | some (.arr xs) => rfl
  | some (.int i) => rfl
  | some (.bool b) => rfl
  | some .null => rfl
  | none => simp only [filterTyped, h2]

/-- The fuel bound of `filterFuel` is irrelevant as soon as it covers the
size of the input: the recursion always terminates in Python and the fuel
is an artifact of the embedding. -/
theorem filterFuel_congr : ∀ (n m : Nat) (v : JVal), jsize v ≤ n → jsize v ≤ m →
    filterFuel n v = filterFuel m v := by
  intro n
  induction n with
  | zero => intro m v hn _; have := jsize_pos v; omega
  | succ n ih =>
    intro m v hn hm
    obtain ⟨m, rfl⟩ : ∃ m', m = m' + 1 := ⟨m - 1, by have := jsize_pos v; omega⟩
    cases v with
    | str s => rfl
    | int i => rfl
    | bool b => rfl
    | null => rfl
    | arr xs =>
      simp only [filterFuel]
      have hxs : mapListM (filterFuel n) xs = mapListM (filterFuel m) xs := by
        apply mapListM_congr
        intro x hx
        have h1 := jsizeL_mem hx
        simp only [jsize] at hn hm
        exact ih m x (by omega) (by omega)
      rw [hxs]
    | obj kvs =>
      simp only [filterFuel]
      simp only [jsize] at hn hm
      apply filterTyped_congr
      · apply filterProps_congr
        intro pkvs hprops kv hkv
        have h1 := jsizeP_mem hkv
        have h2 := jsizeP_lookup hprops
        simp only [jsize] at h2
        exact ih m kv.2 (by omega) (by omega)
      · apply mapPairsM_congr
        intro kv hkv
        have h1 := jsizeP_mem (List.mem_of_mem_filter hkv)
        exact ih m kv.2 (by omega) (by omega)

/-! ### Totality of the schema translation (claim C3) -/

/-- `goodProps p o` holds when the `'object'` branch's properties
comprehension cannot raise: `properties` is absent, a mapping whose values
satisfy `p`, or an empty list / empty string (iterated zero times). -/
def goodProps (p : JVal → Bool) : Option JVal → Bool
  | none => true
  | some (.obj pkvs) => pkvs.all (fun kv => p kv.2)
  | some (.arr xs) => xs.isEmpty
  | some (.str s) => s.isEmpty
  | some _ => false

/-- The type dispatch of `goodFuel` on `schema.get('type')`, mirroring
`filterTyped`: a string type is safe (for `"object"`, when its
`properties` are); a non-string type raises; a missing type recurses into
every value. -/
def goodTyped (p : JVal → Bool) (kvs : List (String × JVal)) :
    Option JVal → Bool
  | some (.str s) =>
    if s = "object" then goodProps p (lookup kvs "properties") else true
  | some _ => false
  | none => kvs.all (fun kv => p kv.2)

/-- Schemas on which `filter_schema` raises no Python error: every mapping
reachable by the translation's recursion either has a string `type` (with
well-formed `properties` when the type is `"object"`), or has no `type`
and recursively well-formed values. -/
def goodFuel : Nat → JVal → Bool
  | 0, _ => false
  | fuel + 1, v =>
    match v with
    | .obj kvs => goodTyped (goodFuel fuel) kvs (lookup kvs "type")
    | .arr xs => xs.all (fun x => goodFuel fuel x)
    | _ => true

/-- The translation-safe schemas: see `goodFuel`. -/
def schemaSafe (v : JVal) : Bool := goodFuel (jsize v) v

theorem mapPairsM_ok {f : JVal → Except String JVal} :
    ∀ {l : List (String × JVal)}, (∀ kv ∈ l, ∃ y, f kv.2 = .ok y) →
      ∃ ys, mapPairsM f l = .ok ys := by
  intro l
  induction l with
  | nil => intro _; exact ⟨[], rfl⟩
  | cons hd tl ih =>
    intro h
    obtain ⟨y, hy⟩ := h hd (List.mem_cons_self hd tl)
    obtain ⟨ys, hys⟩ := ih (fun kv hkv => h kv (List.mem_cons_of_mem hd hkv))
    exact ⟨(hd.1, y) :: ys, by simp only [mapPairsM, hy, hys]; rfl⟩

theorem mapListM_ok {f : JVal → Except String JVal} :
    ∀ {l : List JVal}, (∀ x ∈ l, ∃ y, f x = .ok y) →
      ∃ ys, mapListM f l = .ok ys := by
  intro l
  induction l with
  | nil => intro _; exact ⟨[], rfl⟩
  | cons hd tl ih =>
    intro h
    obtain ⟨y, hy⟩ := h hd (List.mem_cons_self hd tl)
    obtain ⟨ys, hys⟩ := ih (fun x hx => h x (List.mem_cons_of_mem hd hx))
    exact ⟨y :: ys, by simp only [mapListM, hy, hys]; rfl⟩

theorem filterProps_ok {f : JVal → Except String JVal} {p : JVal → Bool}
    {o : Option JVal} (hg : goodProps p o = true)
    (h : ∀ pkvs, o = some (.obj pkvs) → ∀ kv ∈ pkvs, p kv.2 = true → ∃ y, f kv.2 = .ok y) :
    ∃ ys, filterProps f o = .ok ys := by
  match o with
  | none => exact ⟨[], rfl⟩
  | some (.obj pkvs) =>
    simp only [goodProps] at hg
    have hall := List.all_eq_true.mp hg
    apply mapPairsM_ok
    intro kv hkv
    exact h pkvs rfl kv hkv (hall kv hkv)
  | some (.arr xs) =>
    simp only [goodProps] at hg
    exact ⟨[], by simp only [filterProps, hg, if_pos]; rfl⟩
  | some (.str s) =>
    simp only [goodProps] at hg
    exact ⟨[], by simp only [filterProps, hg, if_pos]; rfl⟩
  | some (.int i) => exact Bool.noConfusion (show false = true from hg)
  | some (.bool b) => exact Bool.noConfusion (show false = true from hg)
  | some .null => exact Bool.noConfusion (show false = true from hg)

theorem filterFuel_total : ∀ (fuel : Nat) (v : JVal), jsize v ≤ fuel →
    goodFuel fuel v = true → ∃ y, filterFuel fuel v = .ok y := by
  intro fuel
  induction fuel with
  | zero => intro v h _; have := jsize_pos v; omega
  | succ n ih =>
    intro v hn hg
    cases v with
    | str s => exact ⟨.str s, rfl⟩
    | int i => exact ⟨.int i, rfl⟩
    | bool b => exact ⟨.bool b, rfl⟩
    | null => exact ⟨.null, rfl⟩
    | arr xs =>
      simp only [jsize] at hn
      simp only [goodFuel] at hg
      obtain ⟨ys, hys⟩ : ∃ ys, mapListM (filterFuel n) xs = .ok ys := by
        apply mapListM_ok
        intro x hx
        have hgx := List.all_eq_true.mp hg x hx
        exact ih x (by have := jsizeL_mem hx; omega) hgx
      exact ⟨.arr ys, by simp only [filterFuel, hys]; rfl⟩
    | obj kvs =>
      simp only [jsize] at hn
      simp only [goodFuel] at hg
      simp only [filterFuel]
      cases htype : lookup kvs "type" with
      | none =>
        rw [htype] at hg
        simp only [goodTyped] at hg
        obtain ⟨ys, hys⟩ : ∃ ys,
            mapPairsM (filterFuel n) (kvs.filter fun kv => kv.1 != "title") = .ok ys := by
          apply mapPairsM_ok
          intro kv hkv
          have hmem := List.mem_of_mem_filter hkv
          have hgx := List.all_eq_true.mp hg kv hmem
          have h1 := jsizeP_mem hmem
          exact ih kv.2 (by omega) hgx
        exact ⟨.obj ys, by simp only [filterTyped, hys]; rfl⟩
      | some t =>
        rw [htype] at hg
        cases t with
        | str s =>
          simp only [goodTyped] at hg
          by_cases hs : s = "object"
          · rw [if_pos hs] at hg
            obtain ⟨ys, hys⟩ : ∃ ys,
                filterProps (filterFuel n) (lookup kvs "properties") = .ok ys := by
              apply filterProps_ok hg
              intro pkvs hprops kv hkv hgood
              have h1 := jsizeP_mem hkv
              have h2 := jsizeP_lookup hprops
              simp only [jsize] at h2
              exact ih kv.2 (by omega) hgood
            exact ⟨_, by simp only [filterTyped, if_pos hs, hys]; rfl⟩
          · exact ⟨.obj [("type", .str (pyUpper s)),
                ("description", (lookup kvs "description").getD (.str ""))],
              by simp only [filterTyped, if_neg hs]; rfl⟩
        | int i => exact Bool.noConfusion (show false = true from hg)
        | bool b => exact Bool.noConfusion (show false = true from hg)
        | null => exact Bool.noConfusion (show false = true from hg)
        | arr xs => exact Bool.noConfusion (show false = true from hg)
        | obj pkvs => exact Bool.noConfusion (show false = true from hg)

/-- C3 counterexample: the translation is not total over arbitrary
JSON-schema-shaped input.  On the mapping `{'type': 5}`, whose `type` key
holds a non-string value — a shape the claim explicitly includes —
`schema['type'].upper()` raises `AttributeError`, modelled as
`Except.error`, so no result is returned. -/
theorem claim3_counterexample :
    filter_schema (.obj [("type", .int 5)]) =
        .error "AttributeError: upper on non-string type" ∧
      ¬ ∃ y, filter_schema (.obj [("type", .int 5)]) = .ok y := by
  refine ⟨rfl, ?_⟩
  rintro ⟨y, h⟩
  rw [show filter_schema (.obj [("type", .int 5)]) =
    .error "AttributeError: upper on non-string type" from rfl] at h
  exact Except.noConfusion h

/-- C3 (amended): the schema translation is total — returns a result
and never raises — over every JSON-schema-shaped input in which each
mapping's `type` value, when present, is a string, and each
object-typed mapping's `properties` value, when present, iterates to
string-keyed entries (is a mapping, an empty list, or an empty string).
On a mapping whose `type` value is not a string the translation raises
`AttributeError` (see the counterexample). -/
theorem claim3_total (v : JVal) (h : schemaSafe v = true) :
    ∃ y, filter_schema v = .ok y :=
  filterFuel_total (jsize v) v le_rfl h

/-- Witness for `claim3_total` at the tool provider's actual
`get_crop_info` input schema (a FastMCP-generated object schema with a
`title`-carrying string property). -/
theorem claim3_total_witness :
    schemaSafe (.obj [
        ("properties", .obj [("crop_type", .obj [("title", .str "Crop Type"),
          ("type", .str "string")])]),
        ("required", .arr [.str "crop_type"]),
        ("title", .str "get_crop_infoArguments"),
        ("type", .str "object")]) = true ∧
      ∃ y, filter_schema (.obj [
        ("properties", .obj [("crop_type", .obj [("title", .str "Crop Type"),
          ("type", .str "string")])]),
        ("required", .arr [.str "crop_type"]),
        ("title", .str "get_crop_infoArguments"),
        ("type", .str "object")]) = .ok y :=
  ⟨rfl, claim3_total _ rfl⟩

/-! ### Translated-form schemas and idempotence (claim C2) -/

/-- The `type` key of a translated-form mapping: absent, or a string that
is already uppercase (so it can never match the lowercase `'object'`
branch again). -/
def tfType : Option JVal → Bool
  | some (.str s) => pyUpper s == s
  | some _ => false
  | none => true

/-- Schemas "already in translated form": every `type` value anywhere is
an uppercase string and no `title` key occurs anywhere. -/
def tfFuel : Nat → JVal → Bool
  | 0, _ => false
  | fuel + 1, v =>
    match v with
    | .obj kvs =>
      tfType (lookup kvs "type") &&
        kvs.all (fun kv => kv.1 != "title" && tfFuel fuel kv.2)
    | .arr xs => xs.all (fun x => tfFuel fuel x)
    | _ => true

/-- Schemas in translated form: see `tfFuel`. -/
def translatedForm (v : JVal) : Bool := tfFuel (jsize v) v

theorem mapListM_fix {f : JVal → Except String JVal} {P : JVal → Prop} :
    ∀ {l : List JVal}, (∀ x ∈ l, ∃ y, f x = .ok y ∧ P y) →
      ∃ ys, mapListM f l = .ok ys ∧ ∀ y ∈ ys, P y := by
  intro l
  induction l with
  | nil => intro _; exact ⟨[], rfl, by intro y hy; cases hy⟩
  | cons hd tl ih =>
    intro h
    obtain ⟨y, hy, hPy⟩ := h hd (List.mem_cons_self hd tl)
    obtain ⟨ys, hys, hPys⟩ := ih (fun x hx => h x (List.mem_cons_of_mem hd hx))
    refine ⟨y :: ys, by simp only [mapListM, hy, hys]; rfl, ?_⟩
    intro z hz
    rcases List.mem_cons.mp hz with rfl | hz
    · exact hPy
    · exact hPys z hz

theorem mapPairsM_fix {f : JVal → Except String JVal} {P : JVal → Prop} :
    ∀ {l : List (String × JVal)}, (∀ kv ∈ l, ∃ y, f kv.2 = .ok y ∧ P y) →
      ∃ ys, mapPairsM f l = .ok ys ∧ ys.map Prod.fst = l.map Prod.fst ∧
        ∀ kv ∈ ys, P kv.2 := by
  intro l
  induction l with
  | nil => intro _; exact ⟨[], rfl, rfl, by intro kv hkv; cases hkv⟩
  | cons hd tl ih =>
    intro h
    obtain ⟨y, hy, hPy⟩ := h hd (List.mem_cons_self hd tl)
    obtain ⟨ys, hys, hkeys, hPys⟩ := ih (fun kv hkv => h kv (List.mem_cons_of_mem hd hkv))
    refine ⟨(hd.1, y) :: ys, by simp only [mapPairsM, hy, hys]; rfl, ?_, ?_⟩
    · simp [hkeys]
    · intro kv hkv
      rcases List.mem_cons.mp hkv with rfl | hkv
      · exact hPy
      · exact hPys kv hkv

theorem mapPairsM_id {f : JVal → Except String JVal} :
    ∀ {l : List (String × JVal)}, (∀ kv ∈ l, f kv.2 = .ok kv.2) →
      mapPairsM f l = .ok l := by
  intro l
  induction l with
  | nil => intro _; rfl
  | cons hd tl ih =>
    intro h
    have hy := h hd (List.mem_cons_self hd tl)
    have hys := ih (fun kv hkv => h kv (List.mem_cons_of_mem hd hkv))
    simp only [mapPairsM, hy, hys]; rfl

theorem mapListM_id {f : JVal → Except String JVal} :
    ∀ {l : List JVal}, (∀ x ∈ l, f x = .ok x) → mapListM f l = .ok l := by
  intro l
  induction l with
  | nil => intro _; rfl
  | cons hd tl ih =>
    intro h
    have hy := h hd (List.mem_cons_self hd tl)
    have hys := ih (fun x hx => h x (List.mem_cons_of_mem hd hx))
    simp only [mapListM, hy, hys]; rfl

theorem lookup_eq_none : ∀ {kvs : List (String × JVal)} {k : String},
    lookup kvs k = none ↔ k ∉ kvs.map Prod.fst := by
  intro kvs
  induction kvs with
  | nil => intro k; simp [lookup]
  | cons hd tl ih =>
    intro k
    simp only [lookup, List.map_cons, List.mem_cons]
    by_cases hk : hd.1 = k
    · simp [hk]
    · simp only [if_neg hk, ih]
      constructor
      · intro h hmem
        rcases hmem with h1 | h1
        · exact hk h1.symm
        · exact h h1
      · intro h hmem
        exact h (Or.inr hmem)

/-- On a translated-form schema the translation succeeds and its output
is a fixed point of the translation at every sufficient fuel: the
already-uppercase `type` values can never re-enter the `'object'` branch,
so a second pass reproduces its input. -/
theorem filterFuel_tf_fix : ∀ (fuel : Nat) (v : JVal), jsize v ≤ fuel →
    tfFuel fuel v = true →
    ∃ y, filterFuel fuel v = .ok y ∧
      ∀ m, jsize y ≤ m → filterFuel m y = .ok y := by
  intro fuel
  induction fuel with
  | zero => intro v h _; have := jsize_pos v; omega
  | succ n ih =>
    intro v hn htf
    cases v with
    | str s =>
      refine ⟨.str s, rfl, ?_⟩
      intro m hm
      obtain ⟨m, rfl⟩ : ∃ m', m = m' + 1 := ⟨m - 1, by simp [jsize] at hm; omega⟩
      rfl
    | int i =>
      refine ⟨.int i, rfl, ?_⟩
      intro m hm
      obtain ⟨m, rfl⟩ : ∃ m', m = m' + 1 := ⟨m - 1, by simp [jsize] at hm; omega⟩
      rfl
    | bool b =>
      refine ⟨.bool b, rfl, ?_⟩
      intro m hm
      obtain ⟨m, rfl⟩ : ∃ m', m = m' + 1 := ⟨m - 1, by simp [jsize] at hm; omega⟩
      rfl
    | null =>
      refine ⟨.null, rfl, ?_⟩
      intro m hm
      obtain ⟨m, rfl⟩ : ∃ m', m = m' + 1 := ⟨m - 1, by simp [jsize] at hm; omega⟩
      rfl
    | arr xs =>
      simp only [jsize] at hn
      simp only [tfFuel] at htf
      obtain ⟨ys, hys, hP⟩ := mapListM_fix (f := filterFuel n)
        (P := fun y => ∀ m, jsize y ≤ m → filterFuel m y = .ok y)
        (fun x hx => ih x (by have := jsizeL_mem hx; omega)
          (List.all_eq_true.mp htf x hx))
      refine ⟨.arr ys, by simp only [filterFuel, hys]; rfl, ?_⟩
      intro m hm
      obtain ⟨m, rfl⟩ : ∃ m', m = m' + 1 :=
        ⟨m - 1, by have := jsize_pos (JVal.arr ys); omega⟩
      simp only [jsize] at hm
      have : mapListM (filterFuel m) ys = .ok ys := by
        apply mapListM_id
        intro y hy
        exact hP y hy m (by have := jsizeL_mem hy; omega)
      simp only [filterFuel, this]; rfl
    | obj kvs =>
      simp only [jsize] at hn
      simp only [tfFuel, Bool.and_eq_true] at htf
      obtain ⟨htype, hall⟩ := htf
      have hall' := List.all_eq_true.mp hall
      have hnotitle : ∀ kv ∈ kvs, (kv.1 != "title") = true := by
        intro kv hkv
        have := hall' kv hkv
        simp only [Bool.and_eq_true] at this
        exact this.1
      have htfv : ∀ kv ∈ kvs, tfFuel n kv.2 = true := by
        intro kv hkv
        have := hall' kv hkv
        simp only [Bool.and_eq_true] at this
        exact this.2
      cases hty : lookup kvs "type" with
      | none =>
        rw [hty] at htype
        have hfilter : kvs.filter (fun kv => kv.1 != "title") = kvs :=
          List.filter_eq_self.mpr hnotitle
        obtain ⟨ys, hys, hkeys, hP⟩ := mapPairsM_fix (f := filterFuel n)
          (P := fun y => ∀ m, jsize y ≤ m → filterFuel m y = .ok y)
          (fun kv hkv => ih kv.2 (by have := jsizeP_mem hkv; omega) (htfv kv hkv))
        refine ⟨.obj ys,
          by simp only [filterFuel, filterTyped, hty, hfilter, hys]; rfl, ?_⟩
        intro m hm
        obtain ⟨m, rfl⟩ : ∃ m', m = m' + 1 :=
          ⟨m - 1, by have := jsize_pos (JVal.obj ys); omega⟩
        simp only [jsize] at hm
        have htyy : lookup ys "type" = none := by
          rw [lookup_eq_none, hkeys, ← lookup_eq_none]
          exact hty
        have hnotitley : ∀ kv ∈ ys, (kv.1 != "title") = true := by
          intro kv hkv
          have hmemkeys : kv.1 ∈ kvs.map Prod.fst := by
            rw [← hkeys]
            exact List.mem_map.mpr ⟨kv, hkv, rfl⟩
          obtain ⟨kv', hkv', hfst⟩ := List.mem_map.mp hmemkeys
          rw [← hfst]
          exact hnotitle kv' hkv'
        have hfiltery : ys.filter (fun kv => kv.1 != "title") = ys :=
          List.filter_eq_self.mpr hnotitley
        have hid : mapPairsM (filterFuel m) ys = .ok ys := by
          apply mapPairsM_id
          intro kv hkv
          exact hP kv hkv m (by have := jsizeP_mem hkv; omega)
        simp only [filterFuel, filterTyped, htyy, hfiltery, hid]; rfl
      | some t =>
        rw [hty] at htype
        cases t with
        | str s =>
          have hupper : pyUpper s = s := by
            have : (pyUpper s == s) = true := htype
            exact eq_of_beq this
          have hsne : s ≠ "object" := by
            intro hs
            rw [hs] at hupper
            exact absurd hupper (by decide)
          refine ⟨.obj [("type", .str s),
            ("description", (lookup kvs "description").getD (.str ""))],
            by simp only [filterFuel, filterTyped, hty, if_neg hsne, hupper]; rfl, ?_⟩
          intro m hm
          obtain ⟨m, rfl⟩ : ∃ m', m = m' + 1 := ⟨m - 1, by
            have := jsize_pos (JVal.obj [("type", .str s),
              ("description", (lookup kvs "description").getD (.str ""))])
            omega⟩
          have hty2 : lookup [("type", JVal.str s),
              ("description", (lookup kvs "description").getD (.str ""))] "type" =
              some (.str s) := rfl
          have hdesc : lookup [("type", JVal.str s),
              ("description", (lookup kvs "description").getD (.str ""))] "description" =
              some ((lookup kvs "description").getD (.str "")) := rfl
          simp only [filterFuel, filterTyped, hty2, if_neg hsne, hdesc,
            Option.getD_some, hupper]
          rfl
        | int i => exact Bool.noConfusion (show false = true from htype)
        | bool b => exact Bool.noConfusion (show false = true from htype)
        | null => exact Bool.noConfusion (show false = true from htype)
        | arr xs => exact Bool.noConfusion (show false = true from htype)
        | obj pkvs => exact Bool.noConfusion (show false = true from htype)

/-- C2 counterexample: re-translating an already-translated object schema
does NOT preserve its `properties` and `required` fields.  The input below
is in translated form (types uppercase, no `title`), yet its translation
is a two-key leaf `{'type': 'OBJECT', 'description': ''}`: the uppercase
`'OBJECT'` no longer matches the lowercase `'object'` branch, so the
mapping is re-translated as a typed leaf and `properties`/`required` are
dropped (the output has no `properties` key at all). -/
theorem claim2_counterexample :
    translatedForm (.obj [("type", .str "OBJECT"),
        ("properties", .obj [("crop_type", .obj [("type", .str "STRING"),
          ("description", .str "")])]),
        ("required", .arr [.str "crop_type"])]) = true ∧
      filter_schema (.obj [("type", .str "OBJECT"),
        ("properties", .obj [("crop_type", .obj [("type", .str "STRING"),
          ("description", .str "")])]),
        ("required", .arr [.str "crop_type"])]) =
        .ok (.obj [("type", .str "OBJECT"), ("description", .str "")]) ∧
      lookup [("type", JVal.str "OBJECT"), ("description", JVal.str "")]
        "properties" = none :=
  ⟨rfl, rfl, rfl⟩

/-- C2 (amended): the translation is idempotent on translated-form input —
for every schema `x` already in translated form (all `type` values
uppercase strings, no `title` keys), `translate (translate x)`
behaviorally equals `translate x` — but NOT by preserving an
already-translated object schema: re-translation collapses such a schema
to the leaf `{'type': 'OBJECT', 'description': ''}` on both sides of the
equation (see the counterexample). -/
theorem claim2_idempotent (x : JVal) (h : translatedForm x = true) :
    (filter_schema x).bind filter_schema = filter_schema x := by
  obtain ⟨y, hok, hfix⟩ := filterFuel_tf_fix (jsize x) x le_rfl h
  have hx : filter_schema x = .ok y := hok
  rw [hx]
  show filter_schema y = .ok y
  exact hfix (jsize y) le_rfl

/-- Witness for `claim2_idempotent` at a translated-form object schema. -/
theorem claim2_idempotent_witness :
    translatedForm (.obj [("type", .str "OBJECT"),
        ("properties", .obj [("crop_type", .obj [("type", .str "STRING"),
          ("description", .str "")])]),
        ("required", .arr [.str "crop_type"])]) = true ∧
      (filter_schema (.obj [("type", .str "OBJECT"),
        ("properties", .obj [("crop_type", .obj [("type", .str "STRING"),
          ("description", .str "")])]),
        ("required", .arr [.str "crop_type"])])).bind filter_schema =
      filter_schema (.obj [("type", .str "OBJECT"),
        ("properties", .obj [("crop_type", .obj [("type", .str "STRING"),
          ("description", .str "")])]),
        ("required", .arr [.str "crop_type"])]) :=
  ⟨rfl, claim2_idempotent _ rfl⟩

/-! ### `title` keys in the translation output (claim C4) -/

/-- No key named `title` occurs anywhere in the value, at any depth. -/
def ttlFuel : Nat → JVal → Bool
  | 0, _ => false
  | fuel + 1, v =>
    match v with
    | .obj kvs => kvs.all (fun kv => kv.1 != "title" && ttlFuel fuel kv.2)
    | .arr xs => xs.all (fun x => ttlFuel fuel x)
    | _ => true

/-- `title`-free values: see `ttlFuel`. -/
def titleFree (v : JVal) : Bool := ttlFuel (jsize v) v

theorem all_congr' {α : Type} {f g : α → Bool} :
    ∀ {l : List α}, (∀ x ∈ l, f x = g x) → l.all f = l.all g := by
  intro l
  induction l with
  | nil => intro _; rfl
  | cons hd tl ih =>
    intro h
    simp only [List.all_cons, h hd (List.mem_cons_self hd tl),
      ih (fun x hx => h x (List.mem_cons_of_mem hd hx))]

theorem ttlFuel_congr : ∀ (n m : Nat) (v : JVal), jsize v ≤ n → jsize v ≤ m →
    ttlFuel n v = ttlFuel m v := by
  intro n
  induction n with
  | zero => intro m v hn _; have := jsize_pos v; omega
  | succ n ih =>
    intro m v hn hm
    obtain ⟨m, rfl⟩ : ∃ m', m = m' + 1 := ⟨m - 1, by have := jsize_pos v; omega⟩
    cases v with
    | str s => rfl
    | int i => rfl
    | bool b => rfl
    | null => rfl
    | arr xs =>
      simp only [ttlFuel]
      apply all_congr'
      intro x hx
      have h1 := jsizeL_mem hx
      simp only [jsize] at hn hm
      exact ih m x (by omega) (by omega)
    | obj kvs =>
      simp only [ttlFuel]
      apply all_congr'
      intro kv hkv
      have h1 := jsizeP_mem hkv
      simp only [jsize] at hn hm
      rw [ih m kv.2 (by omega) (by omega)]

/-- Inversion for a bind-then-pure `Except` computation. -/
theorem exceptMapInv {α β : Type} {e : Except String α} {g : α → β} {y : β}
    (h : e.bind (fun a => .ok (g a)) = .ok y) :
    ∃ a, e = .ok a ∧ g a = y := by
  cases e with
  | error msg => exact Except.noConfusion h
  | ok a =>
    refine ⟨a, rfl, ?_⟩
    have h2 : Except.ok (g a) = Except.ok y := h
    injection h2

theorem mapListM_ok_inv {f : JVal → Except String JVal} :
    ∀ {l : List JVal} {ys : List JVal}, mapListM f l = .ok ys →
      ∀ y ∈ ys, ∃ x ∈ l, f x = .ok y := by
  intro l
  induction l with
  | nil =>
    intro ys h y hy
    have h2 : Except.ok ([] : List JVal) = Except.ok ys := h
    injection h2 with h2
    subst h2
    cases hy
  | cons hd tl ih =>
    intro ys h y hy
    cases hhd : f hd with
    | error msg => rw [show mapListM f (hd :: tl) = Except.error msg by
        simp only [mapListM, hhd]; rfl] at h; exact Except.noConfusion h
    | ok z =>
      cases htl : mapListM f tl with
      | error msg => rw [show mapListM f (hd :: tl) = Except.error msg by
          simp only [mapListM, hhd, htl]; rfl] at h; exact Except.noConfusion h
      | ok zs =>
        rw [show mapListM f (hd :: tl) = Except.ok (z :: zs) by
          simp only [mapListM, hhd, htl]; rfl] at h
        injection h with h
        subst h
        rcases List.mem_cons.mp hy with rfl | hy
        · exact ⟨hd, List.mem_cons_self hd tl, hhd⟩
        · obtain ⟨x, hx, hfx⟩ := ih htl y hy
          exact ⟨x, List.mem_cons_of_mem hd hx, hfx⟩

theorem mapPairsM_ok_inv {f : JVal → Except String JVal} :
    ∀ {l : List (String × JVal)} {ys : List (String × JVal)},
      mapPairsM f l = .ok ys →
      ∀ kv ∈ ys, ∃ kv' ∈ l, kv'.1 = kv.1 ∧ f kv'.2 = .ok kv.2 := by
  intro l
  induction l with
  | nil =>
    intro ys h kv hkv
    have h2 : Except.ok ([] : List (String × JVal)) = Except.ok ys := h
    injection h2 with h2
    subst h2
    cases hkv
  | cons hd tl ih =>
    intro ys h kv hkv
    cases hhd : f hd.2 with
    | error msg => rw [show mapPairsM f (hd :: tl) = Except.error msg by
        simp only [mapPairsM, hhd]; rfl] at h; exact Except.noConfusion h
    | ok z =>
      cases htl : mapPairsM f tl with
      | error msg => rw [show mapPairsM f (hd :: tl) = Except.error msg by
          simp only [mapPairsM, hhd, htl]; rfl] at h; exact Except.noConfusion h
      | ok zs =>
        rw [show mapPairsM f (hd :: tl) = Except.ok ((hd.1, z) :: zs) by
          simp only [mapPairsM, hhd, htl]; rfl] at h
        injection h with h
        subst h
        rcases List.mem_cons.mp hkv with rfl | hkv
        · exact ⟨hd, List.mem_cons_self hd tl, rfl, hhd⟩
        · obtain ⟨kv', hkv', hfst, hfkv⟩ := ih htl kv hkv
          exact ⟨kv', List.mem_cons_of_mem hd hkv', hfst, hfkv⟩

/-- Inversion for the properties comprehension: a successful result is
either empty or the translation of a mapping-shaped `properties`. -/
theorem filterProps_inv {f : JVal → Except String JVal} {o : Option JVal}
    {props : List (String × JVal)} (h : filterProps f o = .ok props) :
    props = [] ∨ ∃ pkvs, o = some (.obj pkvs) ∧ mapPairsM f pkvs = .ok props := by
  match o with
  | none =>
    left
    have h2 : Except.ok ([] : List (String × JVal)) = Except.ok props := h
    injection h2 with h2
    exact h2.symm
  | some (.obj pkvs) => exact Or.inr ⟨pkvs, rfl, h⟩
  | some (.arr xs) =>
    left
    simp only [filterProps] at h
    split at h
    · injection h with h; exact h.symm
    · exact Except.noConfusion h
  | some (.str s) =>
    left
    simp only [filterProps] at h
    split at h
    · injection h with h; exact h.symm
    · exact Except.noConfusion h
  | some (.int i) => exact Except.noConfusion h
  | some (.bool b) => exact Except.noConfusion h
  | some .null => exact Except.noConfusion h

theorem ttl_str {m : Nat} {s : String} (h : 1 ≤ m) : ttlFuel m (.str s) = true := by
  obtain ⟨m, rfl⟩ : ∃ m', m = m' + 1 := ⟨m - 1, by omega⟩
  rfl

/-- The verbatim-preserved region of the `'object'` branch's properties
comprehension: a mapping-shaped `properties` declares no property
literally named `title` and its values are recursively safe. -/
def vtfProps (p : JVal → Bool) : Option JVal → Bool
  | some (.obj pkvs) => pkvs.all (fun kv => kv.1 != "title" && p kv.2)
  | _ => true

/-- Type dispatch of `vtfFuel`, mirroring `filterTyped`: in the
`'object'` branch the property names and the verbatim-copied `required`
value must carry no `title`; in the leaf branch the verbatim-copied
`description` value must carry no `title`; an untyped mapping drops its
`title` keys, so only the values of its other keys are constrained. -/
def vtfTyped (p tf : JVal → Bool) (kvs : List (String × JVal)) :
    Option JVal → Bool
  | some (.str s) =>
    if s = "object" then
      vtfProps p (lookup kvs "properties") &&
        tf ((lookup kvs "required").getD (.arr []))
    else tf ((lookup kvs "description").getD (.str ""))
  | some _ => true
  | none => kvs.all (fun kv => kv.1 == "title" || p kv.2)

/-- Inputs whose verbatim-copied regions (object-schema property names,
`required` values, leaf `description` values) put no `title` key into the
translation output. -/
def vtfFuel : Nat → JVal → Bool
  | 0, _ => false
  | fuel + 1, v =>
    match v with
    | .obj kvs => vtfTyped (vtfFuel fuel) (ttlFuel fuel) kvs (lookup kvs "type")
    | .arr xs => xs.all (fun x => vtfFuel fuel x)
    | _ => true

/-- Inputs that cannot smuggle a `title` key into the output: see
`vtfFuel`. -/
def outputTitleSafe (v : JVal) : Bool := vtfFuel (jsize v) v

/-- On an `outputTitleSafe` input, every successful translation output is
`title`-free at any depth. -/
theorem filterFuel_titleFree : ∀ (fuel : Nat) (v y : JVal), jsize v ≤ fuel →
    vtfFuel fuel v = true → filterFuel fuel v = .ok y →
    ∀ m, jsize y ≤ m → ttlFuel m y = true := by
  intro fuel
  induction fuel with
  | zero => intro v y h _ _; have := jsize_pos v; omega
  | succ n ih =>
    intro v y hn hv hok
    cases v with
    | str s =>
      have h2 : Except.ok (JVal.str s) = Except.ok y := hok
      injection h2 with h2; subst h2
      intro m hm
      exact ttl_str (by simp [jsize] at hm; omega)
    | int i =>
      have h2 : Except.ok (JVal.int i) = Except.ok y := hok
      injection h2 with h2; subst h2
      intro m hm
      obtain ⟨m, rfl⟩ : ∃ m', m = m' + 1 := ⟨m - 1, by simp [jsize] at hm; omega⟩
      rfl
    | bool b =>
      have h2 : Except.ok (JVal.bool b) = Except.ok y := hok
      injection h2 with h2; subst h2
      intro m hm
      obtain ⟨m, rfl⟩ : ∃ m', m = m' + 1 := ⟨m - 1, by simp [jsize] at hm; omega⟩
      rfl
    | null =>
      have h2 : Except.ok JVal.null = Except.ok y := hok
      injection h2 with h2; subst h2
      intro m hm
      obtain ⟨m, rfl⟩ : ∃ m', m = m' + 1 := ⟨m - 1, by simp [jsize] at hm; omega⟩
      rfl
    | arr xs =>
      have hok2 : (mapListM (filterFuel n) xs).bind
          (fun ys => Except.ok (JVal.arr ys)) = .ok y := hok
      obtain ⟨ys, hys, hy⟩ := exceptMapInv hok2
      subst hy
      simp only [jsize] at hn
      simp only [vtfFuel] at hv
      intro m hm
      obtain ⟨m, rfl⟩ : ∃ m', m = m' + 1 :=
        ⟨m - 1, by have := jsize_pos (JVal.arr ys); omega⟩
      simp only [jsize] at hm
      simp only [ttlFuel]
      apply List.all_eq_true.mpr
      intro y' hy'
      obtain ⟨x, hx, hfx⟩ := mapListM_ok_inv hys y' hy'
      have hvx := List.all_eq_true.mp hv x hx
      exact ih x y' (by have := jsizeL_mem hx; omega) hvx hfx m
        (by have := jsizeL_mem hy'; omega)
    | obj kvs =>
      simp only [jsize] at hn
      simp only [vtfFuel] at hv
      have hok2 : filterTyped (filterFuel n) kvs (lookup kvs "type") = .ok y := hok
      cases hty : lookup kvs "type" with
      | none =>
        rw [hty] at hok2 hv
        simp only [vtfTyped] at hv
        have hok3 : (mapPairsM (filterFuel n) (kvs.filter fun kv => kv.1 != "title")).bind
            (fun out => Except.ok (JVal.obj out)) = .ok y := hok2
        obtain ⟨ys, hys, hy⟩ := exceptMapInv hok3
        subst hy
        intro m hm
        obtain ⟨m, rfl⟩ : ∃ m', m = m' + 1 :=
          ⟨m - 1, by have := jsize_pos (JVal.obj ys); omega⟩
        simp only [jsize] at hm
        simp only [ttlFuel]
        apply List.all_eq_true.mpr
        intro kv hkv
        obtain ⟨kv', hkv', hfst, hfkv⟩ := mapPairsM_ok_inv hys kv hkv
        have hmem := List.mem_of_mem_filter hkv'
        have htitle : (kv'.1 != "title") = true := (List.mem_filter.mp hkv').2
        have hvv := List.all_eq_true.mp hv kv' hmem
        have hvtf : vtfFuel n kv'.2 = true := by
          rcases Bool.or_eq_true_iff.mp hvv with hbeq | hvtf
          · rw [beq_iff_eq] at hbeq
            rw [bne_iff_ne, ne_eq] at htitle
            exact absurd hbeq htitle
          · exact hvtf
        simp only [Bool.and_eq_true]
        refine ⟨by rw [← hfst]; exact htitle, ?_⟩
        exact ih kv'.2 kv.2 (by have := jsizeP_mem hmem; omega) hvtf hfkv m
          (by have := jsizeP_mem hkv; omega)
      | some t =>
        rw [hty] at hok2 hv
        cases t with
        | str s =>
          simp only [vtfTyped] at hv
          by_cases hs : s = "object"
          · subst hs
            rw [if_pos rfl] at hv
            simp only [Bool.and_eq_true] at hv
            obtain ⟨hvp, hreq⟩ := hv
            have hok3 : (filterProps (filterFuel n) (lookup kvs "properties")).bind
                (fun props => Except.ok (JVal.obj [("type", .str (pyUpper "object")),
                  ("properties", .obj props),
                  ("required", (lookup kvs "required").getD (.arr []))])) = .ok y := hok2
            obtain ⟨props, hprops, hy⟩ := exceptMapInv hok3
            subst hy
            intro m hm
            simp only [jsize, jsizeP] at hm
            obtain ⟨m, rfl⟩ : ∃ m', m = m' + 1 := ⟨m - 1, by omega⟩
            simp only [ttlFuel, List.all_cons, List.all_nil, Bool.and_eq_true,
              Bool.and_true]
            refine ⟨⟨by decide, ttl_str (by omega)⟩, ⟨by decide, ?_⟩, by decide, ?_⟩
            · -- properties output is title-free
              obtain ⟨m, rfl⟩ : ∃ m'', m = m'' + 1 := ⟨m - 1, by omega⟩
              simp only [ttlFuel]
              apply List.all_eq_true.mpr
              intro kv hkv
              rcases filterProps_inv hprops with rfl | ⟨pkvs, hpk, hmap⟩
              · cases hkv
              · obtain ⟨kv', hkv', hfst, hfkv⟩ := mapPairsM_ok_inv hmap kv hkv
                rw [hpk] at hvp
                simp only [vtfProps] at hvp
                have hv' := List.all_eq_true.mp hvp kv' hkv'
                simp only [Bool.and_eq_true] at hv'
                have hsz := jsizeP_lookup hpk
                simp only [jsize] at hsz
                simp only [Bool.and_eq_true]
                refine ⟨by rw [← hfst]; exact hv'.1, ?_⟩
                exact ih kv'.2 kv.2 (by have := jsizeP_mem hkv'; omega) hv'.2 hfkv m
                  (by have := jsizeP_mem hkv; omega)
            · -- required value is title-free (copied verbatim)
              have hszr : jsize ((lookup kvs "required").getD (.arr [])) ≤ n := by
                cases hreq2 : lookup kvs "required" with
                | none =>
                  have := jsizeP_lookup hty
                  simp only [hreq2, Option.getD_none, jsize, jsizeL]
                  simp only [jsize] at this
                  omega
                | some r =>
                  have := jsizeP_lookup hreq2
                  simp only [hreq2, Option.getD_some]
                  omega
              rw [ttlFuel_congr m n _ (by omega) hszr]
              exact hreq
          · rw [if_neg hs] at hv
            rw [show filterTyped (filterFuel n) kvs (some (.str s)) =
                (if s = "object" then do
                  let props ← filterProps (filterFuel n) (lookup kvs "properties")
                  pure (.obj [("type", .str (pyUpper s)),
                    ("properties", .obj props),
                    ("required", (lookup kvs "required").getD (.arr []))])
                else
                  pure (.obj [("type", .str (pyUpper s)),
                    ("description", (lookup kvs "description").getD (.str ""))]))
              from rfl, if_neg hs] at hok2
            have h2 : Except.ok (JVal.obj [("type", .str (pyUpper s)),
                ("description", (lookup kvs "description").getD (.str ""))]) =
                Except.ok y := hok2
            injection h2 with h2; subst h2
            intro m hm
            simp only [jsize, jsizeP] at hm
            obtain ⟨m, rfl⟩ : ∃ m', m = m' + 1 := ⟨m - 1, by omega⟩
            simp only [ttlFuel, List.all_cons, List.all_nil, Bool.and_eq_true,
              Bool.and_true]
            refine ⟨⟨by decide, ttl_str (by omega)⟩, by decide, ?_⟩
            have hszd : jsize ((lookup kvs "description").getD (.str "")) ≤ n := by
              cases hd2 : lookup kvs "description" with
              | none =>
                have := jsizeP_lookup hty
                simp only [hd2, Option.getD_none, jsize]
                simp only [jsize] at this
                omega
              | some d =>
                have := jsizeP_lookup hd2
                simp only [hd2, Option.getD_some]
                omega
            rw [ttlFuel_congr m n _ (by omega) hszd]
            exact hv
        | int i => exact Except.noConfusion hok2
        | bool b => exact Except.noConfusion hok2
        | null => exact Except.noConfusion hok2
        | arr xs => exact Except.noConfusion hok2
        | obj pkvs => exact Except.noConfusion hok2

/-- C4 counterexample: a `title` key CAN appear in the translation
output.  The `'object'` branch preserves property names verbatim, so an
object schema declaring a property literally named `title` yields an
output whose `properties` mapping contains the key `title` — the claim's
own parenthetical case. -/
theorem claim4_counterexample :
    filter_schema (.obj [("type", .str "object"),
        ("properties", .obj [("title", .obj [("type", .str "string")])])]) =
      .ok (.obj [("type", .str "OBJECT"),
        ("properties", .obj [("title", .obj [("type", .str "STRING"),
          ("description", .str "")])]),
        ("required", .arr [])]) ∧
      titleFree (.obj [("type", .str "OBJECT"),
        ("properties", .obj [("title", .obj [("type", .str "STRING"),
          ("description", .str "")])]),
        ("required", .arr [])]) = false :=
  ⟨rfl, rfl⟩

/-- C4 (amended): no `title` key appears anywhere in the translation
output at any depth, EXCEPT inside verbatim-copied regions of the input —
an object schema's property names, its `required` value, and a typed
leaf's `description` value.  Precisely: for every input whose verbatim
regions carry no `title` (`outputTitleSafe`), every successful output is
`title`-free at every depth; `title` keys of untyped mappings are dropped
and may occur freely in the input. -/
theorem claim4_titleFree (v y : JVal) (hv : outputTitleSafe v = true)
    (hok : filter_schema v = .ok y) : titleFree y = true :=
  filterFuel_titleFree (jsize v) v y le_rfl hv hok (jsize y) le_rfl

/-- Witness for `claim4_titleFree`: the provider's `get_crop_info` input
schema carries `title` keys in dropped positions (the top-level mapping's
`title` is ignored by the `'object'` branch, the property leaf's `title`
is dropped by the leaf branch) and the output is `title`-free. -/
theorem claim4_titleFree_witness :
    outputTitleSafe (.obj [("type", .str "object"),
        ("properties", .obj [("crop_type", .obj [("title", .str "Crop Type"),
          ("type", .str "string")])]),
        ("required", .arr [.str "crop_type"]),
        ("title", .str "get_crop_infoArguments")]) = true ∧
      filter_schema (.obj [("type", .str "object"),
        ("properties", .obj [("crop_type", .obj [("title", .str "Crop Type"),
          ("type", .str "string")])]),
        ("required", .arr [.str "crop_type"]),
        ("title", .str "get_crop_infoArguments")]) =
        .ok (.obj [("type", .str "OBJECT"),
          ("properties", .obj [("crop_type", .obj [("type", .str "STRING"),
            ("description", .str "")])]),
          ("required", .arr [.str "crop_type"])]) ∧
      titleFree (.obj [("type", .str "OBJECT"),
        ("properties", .obj [("crop_type", .obj [("type", .str "STRING"),
          ("description", .str "")])]),
        ("required", .arr [.str "crop_type"])]) = true :=
  ⟨rfl, rfl, claim4_titleFree (.obj [("type", .str "object"),
    ("properties", .obj [("crop_type", .obj [("title", .str "Crop Type"),
      ("type", .str "string")])]),
    ("required", .arr [.str "crop_type"]),
    ("title", .str "get_crop_infoArguments")]) _ rfl rfl⟩

theorem mapPairsM_keys {f : JVal → Except String JVal} :
    ∀ {l ys : List (String × JVal)}, mapPairsM f l = .ok ys →
      ys.map Prod.fst = l.map Prod.fst := by
  intro l
  induction l with
  | nil =>
    intro ys h
    have h2 : Except.ok ([] : List (String × JVal)) = Except.ok ys := h
    injection h2 with h2
    subst h2
    rfl
  | cons hd tl ih =>
    intro ys h
    cases hhd : f hd.2 with
    | error msg => rw [show mapPairsM f (hd :: tl) = Except.error msg by
        simp only [mapPairsM, hhd]; rfl] at h; exact Except.noConfusion h
    | ok z =>
      cases htl : mapPairsM f tl with
      | error msg => rw [show mapPairsM f (hd :: tl) = Except.error msg by
          simp only [mapPairsM, hhd, htl]; rfl] at h; exact Except.noConfusion h
      | ok zs =>
        rw [show mapPairsM f (hd :: tl) = Except.ok ((hd.1, z) :: zs) by
          simp only [mapPairsM, hhd, htl]; rfl] at h
        injection h with h
        subst h
        simp only [List.map_cons, ih htl]

/-- C8: on a mapping whose `type` value is the string `"object"`, the
translation emits `type` literally `"OBJECT"`, translates every
`properties` entry recursively with keys preserved, and copies `required`
verbatim, defaulting to the empty list when absent (first conjunct:
mapping-shaped `properties`; second conjunct: absent `properties`). -/
theorem claim8_object_branch :
    (∀ (kvs pkvs props : List (String × JVal)),
      lookup kvs "type" = some (.str "object") →
      lookup kvs "properties" = some (.obj pkvs) →
      mapPairsM filter_schema pkvs = .ok props →
      filter_schema (.obj kvs) = .ok (.obj [("type", .str "OBJECT"),
        ("properties", .obj props),
        ("required", (lookup kvs "required").getD (.arr []))]) ∧
      props.map Prod.fst = pkvs.map Prod.fst) ∧
    (∀ kvs : List (String × JVal),
      lookup kvs "type" = some (.str "object") →
      lookup kvs "properties" = none →
      filter_schema (.obj kvs) = .ok (.obj [("type", .str "OBJECT"),
        ("properties", .obj []),
        ("required", (lookup kvs "required").getD (.arr []))])) := by
  constructor
  · intro kvs pkvs props hty hprops hmap
    refine ⟨?_, mapPairsM_keys hmap⟩
    obtain ⟨f, hf⟩ : ∃ f, jsize (JVal.obj kvs) = f + 1 :=
      ⟨jsizeP kvs, by simp only [jsize]; omega⟩
    have hpk : jsizeP kvs = f := by simp only [jsize] at hf; omega
    have hcongr : mapPairsM (filterFuel f) pkvs = mapPairsM filter_schema pkvs := by
      apply mapPairsM_congr
      intro kv hkv
      have h1 := jsizeP_mem hkv
      have h2 := jsizeP_lookup hprops
      simp only [jsize] at h2
      exact filterFuel_congr f (jsize kv.2) kv.2 (by omega) le_rfl
    rw [show filter_schema (JVal.obj kvs) = filterFuel (f + 1) (JVal.obj kvs) from
      by rw [filter_schema, hf]]
    simp only [filterFuel, hty, filterTyped, if_pos, hprops, filterProps,
      hcongr, hmap]
    rfl
  · intro kvs hty hprops
    obtain ⟨f, hf⟩ : ∃ f, jsize (JVal.obj kvs) = f + 1 :=
      ⟨jsizeP kvs, by simp only [jsize]; omega⟩
    rw [show filter_schema (JVal.obj kvs) = filterFuel (f + 1) (JVal.obj kvs) from
      by rw [filter_schema, hf]]
    simp only [filterFuel, hty, filterTyped, if_pos, hprops, filterProps]
    rfl

/-- Witness for `claim8_object_branch` at a two-property object schema. -/
theorem claim8_object_branch_witness :
    mapPairsM filter_schema [("crop_type", .obj [("type", .str "string")]),
        ("farm_id", .obj [("type", .str "integer")])] =
      .ok [("crop_type", .obj [("type", .str "STRING"), ("description", .str "")]),
        ("farm_id", .obj [("type", .str "INTEGER"), ("description", .str "")])] ∧
      filter_schema (.obj [("type", .str "object"),
        ("properties", .obj [("crop_type", .obj [("type", .str "string")]),
          ("farm_id", .obj [("type", .str "integer")])]),
        ("required", .arr [.str "crop_type", .str "farm_id"])]) =
      .ok (.obj [("type", .str "OBJECT"),
        ("properties", .obj [("crop_type", .obj [("type", .str "STRING"),
            ("description", .str "")]),
          ("farm_id", .obj [("type", .str "INTEGER"), ("description", .str "")])]),
        ("required", .arr [.str "crop_type", .str "farm_id"])]) :=
  ⟨rfl, (claim8_object_branch.1 [("type", .str "object"),
    ("properties", .obj [("crop_type", .obj [("type", .str "string")]),
      ("farm_id", .obj [("type", .str "integer")])]),
    ("required", .arr [.str "crop_type", .str "farm_id"])]
    [("crop_type", .obj [("type", .str "string")]),
      ("farm_id", .obj [("type", .str "integer")])] _ rfl rfl rfl).1⟩

/-! ### The conversation engine of `MCPClient.process_query` -/

/-- Python `repr` of a JSON-like value, with a depth bound (`jsize`
always suffices); used only through `pyStr`. -/
def pyReprFuel : Nat → JVal → String
  | 0, _ => ""
  | fuel + 1, v =>
    match v with
    | .str s => "\x27" ++ s ++ "\x27"
    | .int i => toString i
    | .bool true => "True"
    | .bool false => "False"
    | .null => "None"
    | .arr xs => "[" ++ pyJoin ", " (xs.map (pyReprFuel fuel)) ++ "]"
    | .obj kvs => "\x7b" ++
        pyJoin ", " (kvs.map (fun kv => "\x27" ++ kv.1 ++ "\x27: " ++
          pyReprFuel fuel kv.2)) ++ "\x7d"

/-- Python `str()` of a JSON-like value, as interpolated by an f-string:
a string renders as itself, other values by their `repr`. -/
def pyStr : JVal → String
  | .str s => s
  | v => pyReprFuel (jsize v) v

/-- The result of `session.call_tool` as consumed by `process_query`:
the `isError` flag and the textual content (the text extracted on line
143/169 via `result.content.text if hasattr(result.content, 'text') else
str(result.content)`, which is also the text interpolated into error
messages). -/
structure ToolResult where
  isError : Bool
  content : String

/-- The tool provider (`self.session`): a total function from a tool name
and argument mapping to a result.  Provider-side failures are reported
through `isError`, not exceptions. -/
def ToolOracle : Type := String → List (String × JVal) → ToolResult

/-- One part of a Gemini candidate content: text, or a function call with
an argument mapping (client.py lines 121 and 131). -/
inductive MPart where
  | text (s : String)
  | call (name : String) (args : List (String × JVal))

/-- One stubbed model response: the parts of
`response.candidates[0].content`. -/
structure ModelTurn where
  parts : List MPart

/-- `[part.text for part in model_content.parts if hasattr(part, 'text')]`
(client.py line 121). -/
def textParts (mt : ModelTurn) : List String :=
  mt.parts.filterMap (fun p => match p with
    | .text s => some s
    | .call _ _ => none)

/-- `[part.function_call for part in model_content.parts if
part.function_call]` (client.py line 131). -/
def functionCalls (mt : ModelTurn) : List (String × List (String × JVal)) :=
  mt.parts.filterMap (fun p => match p with
    | .call n a => some (n, a)
    | .text _ => none)

/-- One part of a conversation-history turn: text, a function call, or a
function response carrying a tool's content (client.py lines 105-108,
128, 177-187). -/
inductive HPart where
  | text (s : String)
  | functionCall (name : String) (args : List (String × JVal))
  | functionResponse (name : String) (content : String)

/-- One role-tagged turn of the conversation history. -/
structure Turn where
  role : String
  parts : List HPart

def MPart.toHPart : MPart → HPart
  | .text s => .text s
  | .call n a => .functionCall n a

/-- The model content appended verbatim to the history (client.py line
128); Gemini candidate contents carry the `model` role. -/
def ModelTurn.toTurn (mt : ModelTurn) : Turn :=
  ⟨"model", mt.parts.map MPart.toHPart⟩

/-- One observed tool invocation: its name, arguments, whether the
provider reported an error, and whether it was forced by the fallback
heuristic (line 140) rather than dispatched from a model function call
(line 163). -/
structure CallRec where
  name : String
  args : List (String × JVal)
  isError : Bool
  fromFallback : Bool

/-- A completed `process_query` run, instrumented with the final history,
the returned text, the trace of tool invocations in order, and the number
of completed model invocations. -/
structure RunResult where
  history : List Turn
  output : String
  trace : List CallRec
  modelCalls : Nat

/-- The system instruction seeded as the first history entry (client.py
line 106). -/
def systemInstruction : String :=
  "I am an assistant that uses tools to answer questions about crops and farms. For any query about a specific crop—like \x27how many wheat\x27 (meaning wheat crops) or \x27tell me about corn\x27—I will use the \x27get_crop_info\x27 tool to provide details, including counts if asked."

/-- The history seeded at the top of `process_query` (client.py lines
105-108): a `model`-role system-instruction turn, then the `user`-role
query turn. -/
def initialHistory (query : String) : List Turn :=
  [⟨"model", [.text systemInstruction]⟩, ⟨"user", [.text query]⟩]

/-- Post-processing of a successful tool response (client.py lines
171-176): a `'how many'` query answered by `get_crop_info` is rewritten
into a count sentence over `tool_args['crop_type']` (whose absence raises
`KeyError`, modelled as `.error`); everything else passes through. -/
def responseTextFor (query toolName : String) (args : List (String × JVal))
    (toolResponseText : String) : Except String String :=
  if pyIn "how many" (pyLower query) && (toolName == "get_crop_info") then
    match lookup args "crop_type" with
    | some v => .ok ("There are " ++ toString (nonEmptyLineCount toolResponseText) ++
        " " ++ pyStr v ++ " crops.")
    | none => .error "KeyError: crop_type"
  else .ok toolResponseText

/-- The inner dispatch loop of `process_query` (client.py lines 158-191):
process the model turn's function calls in order.  An `isError` result
appends one `"Error from tool ..."` entry to the final text and stops the
batch (line 168's `break`) without touching the history; a success
appends one `model`-role `FunctionResponse` turn to the history and the
response text to the final text.  Returns the updated history, final-text
list and invocation trace. -/
def processCalls (tool : ToolOracle) (query : String) :
    List (String × List (String × JVal)) → List Turn → List String →
    List CallRec → Except String (List Turn × List String × List CallRec)
  | [], hist, ft, tr => .ok (hist, ft, tr)
  | (name, args) :: rest, hist, ft, tr =>
    let result := tool name args
    if result.isError then
      .ok (hist, ft ++ ["Error from tool " ++ name ++ ": " ++ result.content],
        tr ++ [⟨name, args, true, false⟩])
    else
      match responseTextFor query name args result.content with
      | .error e => .error e
      | .ok responseText =>
        processCalls tool query rest
          (hist ++ [⟨"model", [.functionResponse name responseText]⟩])
          (ft ++ [responseText])
          (tr ++ [⟨name, args, false, false⟩])

/-- The fixed entity keywords of the fallback heuristic (client.py lines
137-139). -/
def fallbackKeywords : List String := ["wheat", "corn"]

/-- The no-function-calls branch of `process_query` (client.py lines
134-155): when the lowercased query contains `"how many"` and a
recognized crop keyword, force-invoke `get_crop_info` with the first
matching keyword and synthesize a count sentence (or an error entry);
otherwise extend the final text with the model turn's text parts.
Returns the final-text list and the invocation trace. -/
def finishNoCalls (tool : ToolOracle) (query : String) (tps ft : List String)
    (tr : List CallRec) : List String × List CallRec :=
  if pyIn "how many" (pyLower query) &&
      fallbackKeywords.any (fun crop => pyIn crop (pyLower query)) then
    match fallbackKeywords.find? (fun crop => pyIn crop (pyLower query)) with
    | some cropType =>
      let result := tool "get_crop_info" [("crop_type", .str cropType)]
      if !result.isError then
        (ft ++ ["There are " ++ toString (nonEmptyLineCount result.content) ++
            " " ++ cropType ++ " crops."],
          tr ++ [⟨"get_crop_info", [("crop_type", .str cropType)], false, true⟩])
      else
        (ft ++ ["Error fetching " ++ cropType ++ " info: " ++ result.content],
          tr ++ [⟨"get_crop_info", [("crop_type", .str cropType)], true, true⟩])
    | none => (ft ++ tps, tr)
  else (ft ++ tps, tr)

/-- The outer `while True` loop of `process_query` (client.py lines
113-193), driven by the list of successive stubbed model responses.  Each
iteration appends the model content to the history; a response with no
function calls runs the fallback check and returns the joined final text;
otherwise the calls are dispatched and the loop continues.  An exhausted
stub list models a run that would invoke the model again. -/
def runLoop (tool : ToolOracle) (query : String) :
    List ModelTurn → List Turn → List String → List CallRec → Nat →
    Except String RunResult
  | [], _, _, _, _ => .error "model invocation without a stubbed response"
  | mt :: rest, hist, ft, tr, n =>
    let hist2 := hist ++ [mt.toTurn]
    match functionCalls mt with
    | [] =>
      let ftr := finishNoCalls tool query (textParts mt) ft tr
      .ok ⟨hist2, pyJoin "\n" ftr.1, ftr.2, n + 1⟩
    | fc :: fcs =>
      match processCalls tool query (fc :: fcs) hist2 ft tr with
      | .error e => .error e
      | .ok (hist3, ft3, tr3) => runLoop tool query rest hist3 ft3 tr3 (n + 1)

/-- `MCPClient.process_query` (client.py lines 84-193), parameterized by
the tool provider and the stubbed model responses. -/
def process_query (tool : ToolOracle) (query : String)
    (stubs : List ModelTurn) : Except String RunResult :=
  runLoop tool query stubs (initialHistory query) [] [] 0

/-! ### The tool server (`src/db_query_server.py`) -/

/-- One row of the `crops` table, in `SELECT *` column order
`(id, farm_id, type, planting_date)` as indexed by `get_crop_info`
(`row[0]`=id, `row[1]`=farm id, `row[2]`=type, `row[3]`=planting date). -/
structure CropRow where
  id : Nat
  farmId : Nat
  cropType : String
  plantingDate : String

/-- `get_crop_info` of db_query_server.py (lines 20-35): `SELECT * FROM
crops WHERE type = ?`; the single-line `"No information found..."`
sentinel when no row matches, otherwise one formatted line per row. -/
def get_crop_info (db : List CropRow) (crop_type : String) : String :=
  let results := db.filter (fun r => r.cropType == crop_type)
  if results.isEmpty then
    "No information found for crop type: " ++ crop_type
  else
    pyJoin "\n" (results.map (fun row =>
      "ID: " ++ toString row.id ++ ", Type: " ++ row.cropType ++
        ", Planting Date: " ++ row.plantingDate ++ ", Farm ID: " ++
        toString row.farmId))

/-- A tool provider backed by the modelled `db_query_server`: serves
`get_crop_info` from the given crops table and reports provider-side
errors (unknown tool, invalid arguments) through `isError`. -/
def dbOracle (db : List CropRow) : ToolOracle := fun name args =>
  if name == "get_crop_info" then
    match lookup args "crop_type" with
    | some (.str ct) => ⟨false, get_crop_info db ct⟩
    | _ => ⟨true, "Invalid arguments"⟩
  else ⟨true, "Unknown tool: " ++ name⟩

/-! ### History growth (claim C1) -/

/-- The number of successful tool invocations dispatched from model
function calls (the fallback's forced invocation and errored invocations
excluded): exactly the invocations that append a `FunctionResponse` turn
to the history. -/
def successCount (tr : List CallRec) : Nat :=
  (tr.filter (fun c => !c.isError && !c.fromFallback)).length

theorem successCount_append (tr : List CallRec) (c : CallRec) :
    successCount (tr ++ [c]) =
      successCount tr + (if (!c.isError && !c.fromFallback) = true then 1 else 0) := by
  simp only [successCount, List.filter_append, List.length_append]
  split
  · rename_i h
    simp [List.filter, h]
  · rename_i h
    simp [List.filter, h]

theorem processCalls_hist_inv {tool : ToolOracle} {query : String} :
    ∀ {calls : List (String × List (String × JVal))} {hist : List Turn}
      {ft : List String} {tr : List CallRec} {hist' : List Turn}
      {ft' : List String} {tr' : List CallRec},
      processCalls tool query calls hist ft tr = .ok (hist', ft', tr') →
      hist'.length + successCount tr = hist.length + successCount tr' := by
  intro calls
  induction calls with
  | nil =>
    intro hist ft tr hist' ft' tr' h
    simp only [processCalls, Except.ok.injEq, Prod.mk.injEq] at h
    obtain ⟨h1, h2, h3⟩ := h
    subst h1
    subst h3
    rfl
  | cons hd rest ih =>
    intro hist ft tr hist' ft' tr' h
    obtain ⟨name, args⟩ := hd
    by_cases herr : (tool name args).isError = true
    · rw [show processCalls tool query ((name, args) :: rest) hist ft tr =
          .ok (hist, ft ++ ["Error from tool " ++ name ++ ": " ++
            (tool name args).content], tr ++ [⟨name, args, true, false⟩]) from by
        simp only [processCalls, herr]; rfl] at h
      simp only [Except.ok.injEq, Prod.mk.injEq] at h
      obtain ⟨hh, hf, ht⟩ := h
      subst hh
      subst ht
      rw [successCount_append]
      simp
    · rw [Bool.not_eq_true] at herr
      cases hresp : responseTextFor query name args (tool name args).content with
      | error e =>
        rw [show processCalls tool query ((name, args) :: rest) hist ft tr =
            .error e from by simp only [processCalls, herr, hresp]; rfl] at h
        exact Except.noConfusion h
      | ok responseText =>
        rw [show processCalls tool query ((name, args) :: rest) hist ft tr =
            processCalls tool query rest
              (hist ++ [⟨"model", [.functionResponse name responseText]⟩])
              (ft ++ [responseText])
              (tr ++ [⟨name, args, false, false⟩]) from by
          simp only [processCalls, herr, hresp]; rfl] at h
        have := ih h
        rw [successCount_append] at this
        simp only [List.length_append, List.length_cons, List.length_nil] at this
        simp only [Bool.not_false, Bool.and_self, if_pos] at this
        omega

theorem finishNoCalls_successCount (tool : ToolOracle) (query : String)
    (tps ft : List String) (tr : List CallRec) :
    successCount (finishNoCalls tool query tps ft tr).2 = successCount tr := by
  rw [finishNoCalls]
  split
  · split
    · rename_i cropType _
      by_cases herr : (tool "get_crop_info" [("crop_type", .str cropType)]).isError
      · simp only [herr, Bool.not_true, Bool.false_eq_true, if_neg,
          Bool.false_eq_true]
        rw [if_neg (by simp [herr])]
        rw [successCount_append]
        simp
      · rw [if_pos (by simp [Bool.not_eq_true] at herr; simp [herr])]
        rw [successCount_append]
        simp
    · rfl
  · rfl

theorem runLoop_hist_inv {tool : ToolOracle} {query : String} :
    ∀ {stubs : List ModelTurn} {hist : List Turn} {ft : List String}
      {tr : List CallRec} {n : Nat} {r : RunResult},
      runLoop tool query stubs hist ft tr n = .ok r →
      r.history.length + n + successCount tr =
        hist.length + r.modelCalls + successCount r.trace := by
  intro stubs
  induction stubs with
  | nil => intro hist ft tr n r h; exact Except.noConfusion h
  | cons mt rest ih =>
    intro hist ft tr n r h
    cases hcalls : functionCalls mt with
    | nil =>
      rw [show runLoop tool query (mt :: rest) hist ft tr n =
          .ok ⟨hist ++ [mt.toTurn],
            pyJoin "\n" (finishNoCalls tool query (textParts mt) ft tr).1,
            (finishNoCalls tool query (textParts mt) ft tr).2, n + 1⟩ from by
        simp only [runLoop, hcalls]] at h
      injection h with h
      subst h
      simp only [List.length_append, List.length_cons, List.length_nil,
        finishNoCalls_successCount]
      omega
    | cons fc fcs =>
      rw [show runLoop tool query (mt :: rest) hist ft tr n =
          (match processCalls tool query (fc :: fcs) (hist ++ [mt.toTurn]) ft tr with
            | .error e => .error e
            | .ok (hist3, ft3, tr3) =>
              runLoop tool query rest hist3 ft3 tr3 (n + 1)) from by
        simp only [runLoop, hcalls]] at h
      cases hpc : processCalls tool query (fc :: fcs) (hist ++ [mt.toTurn]) ft tr with
      | error e => rw [hpc] at h; exact Except.noConfusion h
      | ok out =>
        obtain ⟨hist3, ft3, tr3⟩ := out
        rw [hpc] at h
        have h1 := ih h
        have h2 := processCalls_hist_inv hpc
        simp only [List.length_append, List.length_cons, List.length_nil] at h2
        omega

/-- C1 counterexample: the history is NOT seeded with the user's query as
a single turn.  `process_query` seeds TWO turns — a `model`-role system
instruction and the `user` query — so after one completed model
invocation with zero tool calls the history length is 3, not the claimed
1 + 1 = 2. -/
theorem claim1_counterexample :
    (process_query (fun _ _ => ⟨true, "no tools"⟩) "hello"
        [⟨[.text "hi"]⟩]).map
      (fun r => (r.history.length, r.modelCalls, r.trace.length)) =
      .ok (3, 1, 0) ∧ (3 : Nat) ≠ 1 + 1 :=
  ⟨rfl, by decide⟩

/-- C1 (amended): the history is seeded with a fixed system-instruction
`model` turn plus the user's query turn (2 turns, not 1); thereafter
every completed model invocation appends exactly one turn and every
successful tool invocation dispatched from a model function call appends
exactly one `model`-role `FunctionResponse` turn (errored invocations and
the fallback's forced invocation append none), so the final history
length is `2 + modelCalls + successCount trace`; with zero tool calls,
`2 + N`. -/
theorem claim1_history_growth (tool : ToolOracle) (query : String)
    (stubs : List ModelTurn) (r : RunResult)
    (h : process_query tool query stubs = .ok r) :
    r.history.length = 2 + r.modelCalls + successCount r.trace := by
  have h1 := runLoop_hist_inv h
  have h0 : successCount ([] : List CallRec) = 0 := rfl
  simp only [initialHistory, List.length_cons, List.length_nil] at h1
  omega

/-- Witness for `claim1_history_growth`: a run with one successful
dispatched call and a terminal text turn — history length
5 = 2 + 2 model turns + 1 function-response turn. -/
theorem claim1_history_growth_witness :
    process_query (fun _ _ => ⟨false, "info"⟩) "hello"
        [⟨[.call "get_farm_info" []]⟩, ⟨[.text "done"]⟩] =
      .ok ⟨[⟨"model", [.text systemInstruction]⟩, ⟨"user", [.text "hello"]⟩,
        ⟨"model", [.functionCall "get_farm_info" []]⟩,
        ⟨"model", [.functionResponse "get_farm_info" "info"]⟩,
        ⟨"model", [.text "done"]⟩], "info\ndone",
        [⟨"get_farm_info", [], false, false⟩], 2⟩ ∧
      (5 : Nat) = 2 + 2 + successCount [⟨"get_farm_info", [], false, false⟩] :=
  ⟨rfl, claim1_history_growth (fun _ _ => ⟨false, "info"⟩) "hello"
    [⟨[.call "get_farm_info" []]⟩, ⟨[.text "done"]⟩] _ rfl⟩

/-! ### Error short-circuit (claims C6 and C10) -/

/-- C10: a tool invocation that returns `isError = true` leaves the
conversation history unchanged — no `FunctionResponse` turn is appended
for the failed call — and the error is recorded only in the accumulated
final-answer text, as the single entry `"Error from tool {name}:
{content}"` (the trace records the attempted invocation). -/
theorem claim10_error_leaves_history (tool : ToolOracle) (query name : String)
    (args : List (String × JVal)) (rest : List (String × List (String × JVal)))
    (hist : List Turn) (ft : List String) (tr : List CallRec)
    (herr : (tool name args).isError = true) :
    processCalls tool query ((name, args) :: rest) hist ft tr =
      .ok (hist,
        ft ++ ["Error from tool " ++ name ++ ": " ++ (tool name args).content],
        tr ++ [⟨name, args, true, false⟩]) := by
  simp only [processCalls, herr]
  rfl

/-- Witness for `claim10_error_leaves_history` at a concrete erroring
provider: the history comes back exactly as it went in. -/
theorem claim10_error_leaves_history_witness :
    processCalls (fun _ _ => ⟨true, "boom"⟩) "hello"
        [("get_crop_info", []), ("get_farm_info", [])]
        [⟨"user", [.text "hello"]⟩] [] [] =
      .ok ([⟨"user", [.text "hello"]⟩],
        ["Error from tool get_crop_info: boom"],
        [⟨"get_crop_info", [], true, false⟩]) := by
  have h := claim10_error_leaves_history (fun _ _ => ⟨true, "boom"⟩) "hello"
    "get_crop_info" [] [("get_farm_info", [])]
    [⟨"user", [.text "hello"]⟩] [] [] rfl
  simpa using h

/-- C6: when a model turn carries two (or more) function calls and the
first invocation returns `isError = true`, the engine appends exactly one
`"Error from tool {name}: {content}"` entry, invokes none of the
remaining calls of that turn (the trace — which records every invocation
— gains only the first call's record), and still continues the outer loop
with the next model invocation rather than terminating the run. -/
theorem claim6_error_short_circuit (tool : ToolOracle) (query : String)
    (ps : List MPart) (n1 : String) (a1 : List (String × JVal))
    (n2 : String) (a2 : List (String × JVal))
    (cs : List (String × List (String × JVal))) (rest : List ModelTurn)
    (hist : List Turn) (ft : List String) (tr : List CallRec) (k : Nat)
    (hcalls : functionCalls ⟨ps⟩ = (n1, a1) :: (n2, a2) :: cs)
    (herr : (tool n1 a1).isError = true) :
    runLoop tool query (⟨ps⟩ :: rest) hist ft tr k =
      runLoop tool query rest (hist ++ [ModelTurn.toTurn ⟨ps⟩])
        (ft ++ ["Error from tool " ++ n1 ++ ": " ++ (tool n1 a1).content])
        (tr ++ [⟨n1, a1, true, false⟩]) (k + 1) := by
  simp only [runLoop, hcalls, processCalls, herr]
  rfl

/-- Witness for `claim6_error_short_circuit`: with the first of two calls
erroring, the run continues into the next stubbed model response. -/
theorem claim6_error_short_circuit_witness :
    runLoop (fun name _ => if name == "t1" then (⟨true, "down"⟩ : ToolResult)
        else ⟨false, "ok"⟩) "hello"
        [⟨[.call "t1" [], .call "t2" []]⟩, ⟨[.text "done"]⟩] [] [] [] 0 =
      runLoop (fun name _ => if name == "t1" then (⟨true, "down"⟩ : ToolResult)
        else ⟨false, "ok"⟩) "hello" [⟨[.text "done"]⟩]
        ([] ++ [ModelTurn.toTurn ⟨[.call "t1" [], .call "t2" []]⟩])
        ([] ++ ["Error from tool " ++ "t1" ++ ": " ++
          ((fun name _ => if name == "t1" then (⟨true, "down"⟩ : ToolResult)
            else ⟨false, "ok"⟩) "t1" ([] : List (String × JVal))).content])
        ([] ++ [⟨"t1", [], true, false⟩]) (0 + 1) :=
  claim6_error_short_circuit _ _ _ _ _ _ _ _ _ _ _ _ _ rfl rfl

/-! ### Terminal-turn text (claim C7) -/

/-- C7 counterexample: when an earlier model turn made a successful tool
call, the returned text is NOT just the final turn's joined text parts —
the accumulated tool-response entries are joined in front of it.  Here
the final no-call turn's text is `"done"`, yet the run returns
`"info\ndone"`. -/
theorem claim7_counterexample :
    (process_query (fun _ _ => ⟨false, "info"⟩) "hello"
        [⟨[.call "get_farm_info" []]⟩, ⟨[.text "done"]⟩]).map
      (fun r => r.output) = .ok "info\ndone" ∧
      ("info\ndone" : String) ≠ "done" :=
  ⟨rfl, by decide⟩

/-- C7 (amended): when the FIRST model turn yields no function calls and
the fallback heuristic does not fire, the returned text is exactly the
newline-joined Text parts of that turn (no accumulated entries precede
it); in a longer run the final text is the newline-join of all
accumulated tool-response/error entries followed by that turn's text
parts. -/
theorem claim7_terminal_text (tool : ToolOracle) (query : String)
    (mt : ModelTurn) (stubs : List ModelTurn) (r : RunResult)
    (hnc : functionCalls mt = [])
    (hnf : (pyIn "how many" (pyLower query) &&
      fallbackKeywords.any (fun crop => pyIn crop (pyLower query))) = false)
    (h : process_query tool query (mt :: stubs) = .ok r) :
    r.output = pyJoin "\n" (textParts mt) := by
  simp only [process_query, runLoop, hnc, finishNoCalls, hnf,
    Bool.false_eq_true, if_false, List.nil_append, Except.ok.injEq] at h
  subst h
  rfl

/-- Witness for `claim7_terminal_text`: the specification's own test
vector — query `"what is the weather"`, stub text `"I cannot answer
that."` — returns exactly that text. -/
theorem claim7_terminal_text_witness :
    process_query (fun _ _ => ⟨true, "no server"⟩) "what is the weather"
        [⟨[.text "I cannot answer that."]⟩] =
      .ok ⟨[⟨"model", [.text systemInstruction]⟩,
        ⟨"user", [.text "what is the weather"]⟩,
        ⟨"model", [.text "I cannot answer that."]⟩],
        "I cannot answer that.", [], 1⟩ ∧
      ("I cannot answer that." : String) =
        pyJoin "\n" (textParts ⟨[.text "I cannot answer that."]⟩) :=
  ⟨rfl, claim7_terminal_text (fun _ _ => ⟨true, "no server"⟩)
    "what is the weather" ⟨[.text "I cannot answer that."]⟩ [] _ rfl rfl rfl⟩

/-! ### The fallback heuristic (claim C5) -/

theorem processCalls_trace {tool : ToolOracle} {query : String} :
    ∀ {calls : List (String × List (String × JVal))} {hist : List Turn}
      {ft : List String} {tr : List CallRec} {hist' : List Turn}
      {ft' : List String} {tr' : List CallRec},
      processCalls tool query calls hist ft tr = .ok (hist', ft', tr') →
      ∃ ext, tr' = tr ++ ext ∧ ∀ c ∈ ext, c.fromFallback = false := by
  intro calls
  induction calls with
  | nil =>
    intro hist ft tr hist' ft' tr' h
    simp only [processCalls, Except.ok.injEq, Prod.mk.injEq] at h
    obtain ⟨h1, h2, h3⟩ := h
    subst h3
    exact ⟨[], by simp, by intro c hc; cases hc⟩
  | cons hd rest ih =>
    intro hist ft tr hist' ft' tr' h
    obtain ⟨name, args⟩ := hd
    by_cases herr : (tool name args).isError = true
    · rw [show processCalls tool query ((name, args) :: rest) hist ft tr =
          .ok (hist, ft ++ ["Error from tool " ++ name ++ ": " ++
            (tool name args).content], tr ++ [⟨name, args, true, false⟩]) from by
        simp only [processCalls, herr]; rfl] at h
      simp only [Except.ok.injEq, Prod.mk.injEq] at h
      obtain ⟨hh, hf, ht⟩ := h
      subst ht
      refine ⟨[⟨name, args, true, false⟩], rfl, ?_⟩
      intro c hc
      simp only [List.mem_singleton] at hc
      subst hc
      rfl
    · rw [Bool.not_eq_true] at herr
      cases hresp : responseTextFor query name args (tool name args).content with
      | error e =>
        rw [show processCalls tool query ((name, args) :: rest) hist ft tr =
            .error e from by simp only [processCalls, herr, hresp]; rfl] at h
        exact Except.noConfusion h
      | ok responseText =>
        rw [show processCalls tool query ((name, args) :: rest) hist ft tr =
            processCalls tool query rest
              (hist ++ [⟨"model", [.functionResponse name responseText]⟩])
              (ft ++ [responseText])
              (tr ++ [⟨name, args, false, false⟩]) from by
          simp only [processCalls, herr, hresp]; rfl] at h
        obtain ⟨ext, hext, hfb⟩ := ih h
        refine ⟨⟨name, args, false, false⟩ :: ext, by simp [hext], ?_⟩
        intro c hc
        rcases List.mem_cons.mp hc with rfl | hc
        · rfl
        · exact hfb c hc

theorem runLoop_fallback {tool : ToolOracle} {query : String} :
    ∀ {stubs : List ModelTurn} {hist : List Turn} {ft : List String}
      {tr : List CallRec} {n : Nat} {r : RunResult},
      runLoop tool query stubs hist ft tr n = .ok r →
      (∀ c ∈ tr, c.fromFallback = false) →
      ((∃ c ∈ r.trace, c.fromFallback = true) ↔
        (pyIn "how many" (pyLower query) &&
          fallbackKeywords.any (fun crop => pyIn crop (pyLower query))) = true) ∧
      ∀ kw, fallbackKeywords.find? (fun crop => pyIn crop (pyLower query)) = some kw →
        pyIn "how many" (pyLower query) = true →
        (∃ pre, r.trace = pre ++ [⟨"get_crop_info", [("crop_type", .str kw)],
            (tool "get_crop_info" [("crop_type", .str kw)]).isError, true⟩] ∧
          ∀ c ∈ pre, c.fromFallback = false) ∧
        ((tool "get_crop_info" [("crop_type", .str kw)]).isError = false →
          ∃ pre, r.output = pyJoin "\n" (pre ++
            ["There are " ++ toString (nonEmptyLineCount
              (tool "get_crop_info" [("crop_type", .str kw)]).content) ++
              " " ++ kw ++ " crops."])) := by
  intro stubs
  induction stubs with
  | nil => intro hist ft tr n r h _; exact Except.noConfusion h
  | cons mt rest ih =>
    intro hist ft tr n r h hinv
    cases hcalls : functionCalls mt with
    | nil =>
      rw [show runLoop tool query (mt :: rest) hist ft tr n =
          .ok ⟨hist ++ [mt.toTurn],
            pyJoin "\n" (finishNoCalls tool query (textParts mt) ft tr).1,
            (finishNoCalls tool query (textParts mt) ft tr).2, n + 1⟩ from by
        simp only [runLoop, hcalls]] at h
      injection h with h
      subst h
      by_cases hfires : (pyIn "how many" (pyLower query) &&
          fallbackKeywords.any (fun crop => pyIn crop (pyLower query))) = true
      · have hsome : (fallbackKeywords.find?
            (fun crop => pyIn crop (pyLower query))).isSome := by
          rw [List.find?_isSome]
          rw [Bool.and_eq_true] at hfires
          obtain ⟨x, hx⟩ := List.any_eq_true.mp hfires.2
          exact ⟨x, hx.1, hx.2⟩
        obtain ⟨kw0, hkw0⟩ := Option.isSome_iff_exists.mp hsome
        rw [show finishNoCalls tool query (textParts mt) ft tr =
            (if !(tool "get_crop_info" [("crop_type", .str kw0)]).isError then
              (ft ++ ["There are " ++ toString (nonEmptyLineCount
                  (tool "get_crop_info" [("crop_type", .str kw0)]).content) ++
                  " " ++ kw0 ++ " crops."],
                tr ++ [⟨"get_crop_info", [("crop_type", .str kw0)], false, true⟩])
            else
              (ft ++ ["Error fetching " ++ kw0 ++ " info: " ++
                  (tool "get_crop_info" [("crop_type", .str kw0)]).content],
                tr ++ [⟨"get_crop_info", [("crop_type", .str kw0)], true, true⟩]))
          from by rw [finishNoCalls, if_pos hfires, hkw0]]
        by_cases herr : (tool "get_crop_info" [("crop_type", .str kw0)]).isError = true
        · rw [if_neg (by simp [herr])]
          constructor
          · simp only []
            constructor
            · intro _; exact hfires
            · intro _
              exact ⟨⟨"get_crop_info", [("crop_type", .str kw0)], true, true⟩,
                by simp, rfl⟩
          · intro kw hkw hhow
            have hkweq : kw = kw0 := by
              rw [hkw0] at hkw
              injection hkw with h2
              exact h2.symm
            subst hkweq
            refine ⟨?_, ?_⟩
            · exact ⟨tr, by simp [herr], hinv⟩
            · intro hok
              rw [hok] at herr
              exact Bool.noConfusion herr
        · rw [Bool.not_eq_true] at herr
          rw [if_pos (by simp [herr])]
          constructor
          · simp only []
            constructor
            · intro _; exact hfires
            · intro _
              exact ⟨⟨"get_crop_info", [("crop_type", .str kw0)], false, true⟩,
                by simp, rfl⟩
          · intro kw hkw hhow
            have hkweq : kw = kw0 := by
              rw [hkw0] at hkw
              injection hkw with h2
              exact h2.symm
            subst hkweq
            refine ⟨⟨tr, by simp [herr], hinv⟩, ?_⟩
            intro _
            exact ⟨ft, rfl⟩
      · rw [show finishNoCalls tool query (textParts mt) ft tr =
            (ft ++ textParts mt, tr) from by
          rw [finishNoCalls, if_neg hfires]]
        constructor
        · simp only []
          constructor
          · intro ⟨c, hc, hfb⟩
            exact absurd (hinv c hc) (by rw [hfb]; exact Bool.noConfusion)
          · intro hf; exact absurd hf hfires
        · intro kw hkw hhow
          exfalso
          apply hfires
          rw [Bool.and_eq_true]
          refine ⟨hhow, ?_⟩
          rw [List.any_eq_true]
          have hp := List.find?_some hkw
          exact ⟨kw, List.mem_of_find?_eq_some hkw, hp⟩
    | cons fc fcs =>
      rw [show runLoop tool query (mt :: rest) hist ft tr n =
          (match processCalls tool query (fc :: fcs) (hist ++ [mt.toTurn]) ft tr with
            | .error e => .error e
            | .ok (hist3, ft3, tr3) =>
              runLoop tool query rest hist3 ft3 tr3 (n + 1)) from by
        simp only [runLoop, hcalls]] at h
      cases hpc : processCalls tool query (fc :: fcs) (hist ++ [mt.toTurn]) ft tr with
      | error e => rw [hpc] at h; exact Except.noConfusion h
      | ok out =>
        obtain ⟨hist3, ft3, tr3⟩ := out
        rw [hpc] at h
        obtain ⟨ext, hext, hfb⟩ := processCalls_trace hpc
        refine ih h ?_
        subst hext
        intro c hc
        rcases List.mem_append.mp hc with hc | hc
        · exact hinv c hc
        · exact hfb c hc

/-- C5 counterexample: on success the final answer is NOT always exactly
`"There are {count} {entity} crops."` — the fallback's sentence is only
appended to the already-accumulated final-text entries (client.py lines
111, 188, 193), and the return joins them all.  In a run whose first
model turn dispatches a successful `get_farm_info` call (response
`"farm"`) and whose second turn has no function calls, the trigger query
returns `"farm\nThere are 3 wheat crops."`, not the sentence alone. -/
theorem claim5_counterexample :
    (process_query (fun name _ => if name == "get_farm_info"
          then (⟨false, "farm"⟩ : ToolResult) else ⟨false, "l1\nl2\nl3"⟩)
        "how many wheat crops are there"
        [⟨[.call "get_farm_info" []]⟩, ⟨[.text "?"]⟩]).map
      (fun r => r.output) = .ok "farm\nThere are 3 wheat crops." ∧
      ("farm\nThere are 3 wheat crops." : String) ≠ "There are 3 wheat crops." :=
  ⟨rfl, by decide⟩

theorem finishNoCalls_success (tool : ToolOracle) (query : String)
    (tps ft : List String) (tr : List CallRec) (kw : String)
    (hfires : (pyIn "how many" (pyLower query) &&
      fallbackKeywords.any (fun crop => pyIn crop (pyLower query))) = true)
    (hfind : fallbackKeywords.find? (fun crop => pyIn crop (pyLower query)) =
      some kw)
    (herr : (tool "get_crop_info" [("crop_type", .str kw)]).isError = false) :
    finishNoCalls tool query tps ft tr =
      (ft ++ ["There are " ++ toString (nonEmptyLineCount
          (tool "get_crop_info" [("crop_type", .str kw)]).content) ++
          " " ++ kw ++ " crops."],
        tr ++ [⟨"get_crop_info", [("crop_type", .str kw)], false, true⟩]) := by
  rw [show finishNoCalls tool query tps ft tr =
      (if !(tool "get_crop_info" [("crop_type", .str kw)]).isError then
        (ft ++ ["There are " ++ toString (nonEmptyLineCount
            (tool "get_crop_info" [("crop_type", .str kw)]).content) ++
            " " ++ kw ++ " crops."],
          tr ++ [⟨"get_crop_info", [("crop_type", .str kw)], false, true⟩])
      else
        (ft ++ ["Error fetching " ++ kw ++ " info: " ++
            (tool "get_crop_info" [("crop_type", .str kw)]).content],
          tr ++ [⟨"get_crop_info", [("crop_type", .str kw)], true, true⟩]))
    from by rw [finishNoCalls, if_pos hfires, hfind]]
  rw [if_pos (by simp [herr])]

/-- C5 (amended): over any completed run, the fallback fires (observable
as a `fromFallback` invocation in the trace, recorded only on the
no-function-call terminal turn) if and only if the lowercased query
contains `"how many"` and at least one recognized keyword of
`["wheat", "corn"]`.  On trigger it deterministically invokes
`get_crop_info` with the FIRST matching keyword in that fixed order as
`crop_type`.  On provider success the sentence `"There are {count}
{entity} crops."` — with `count` the number of non-empty lines in the
tool's raw text content — is the LAST newline-joined entry of the final
answer, and the final answer is exactly that sentence when the
triggering turn is the first model turn; when earlier turns accumulated
tool-response entries those precede it (see the counterexample). -/
theorem claim5_fallback_trigger (tool : ToolOracle) (query : String)
    (stubs : List ModelTurn) (r : RunResult)
    (h : process_query tool query stubs = .ok r) :
    ((∃ c ∈ r.trace, c.fromFallback = true) ↔
      (pyIn "how many" (pyLower query) &&
        fallbackKeywords.any (fun crop => pyIn crop (pyLower query))) = true) ∧
    (∀ kw, fallbackKeywords.find? (fun crop => pyIn crop (pyLower query)) =
        some kw →
      pyIn "how many" (pyLower query) = true →
      (∃ pre, r.trace = pre ++ [⟨"get_crop_info", [("crop_type", .str kw)],
          (tool "get_crop_info" [("crop_type", .str kw)]).isError, true⟩] ∧
        ∀ c ∈ pre, c.fromFallback = false) ∧
      ((tool "get_crop_info" [("crop_type", .str kw)]).isError = false →
        ∃ pre, r.output = pyJoin "\n" (pre ++
          ["There are " ++ toString (nonEmptyLineCount
            (tool "get_crop_info" [("crop_type", .str kw)]).content) ++
            " " ++ kw ++ " crops."]))) ∧
    (∀ (mt : ModelTurn) (rest : List ModelTurn) (kw : String),
      stubs = mt :: rest → functionCalls mt = [] →
      pyIn "how many" (pyLower query) = true →
      fallbackKeywords.find? (fun crop => pyIn crop (pyLower query)) =
        some kw →
      (tool "get_crop_info" [("crop_type", .str kw)]).isError = false →
      r.output = "There are " ++ toString (nonEmptyLineCount
        (tool "get_crop_info" [("crop_type", .str kw)]).content) ++
        " " ++ kw ++ " crops.") := by
  refine ⟨(runLoop_fallback h (by intro c hc; cases hc)).1,
    (runLoop_fallback h (by intro c hc; cases hc)).2, ?_⟩
  intro mt rest kw hstubs hnc hhow hfind herr
  subst hstubs
  have hfires : (pyIn "how many" (pyLower query) &&
      fallbackKeywords.any (fun crop => pyIn crop (pyLower query))) = true := by
    rw [Bool.and_eq_true]
    refine ⟨hhow, List.any_eq_true.mpr ?_⟩
    have hp := List.find?_some hfind
    exact ⟨kw, List.mem_of_find?_eq_some hfind, hp⟩
  simp only [process_query, runLoop, hnc, Except.ok.injEq] at h
  subst h
  show pyJoin "\n" (finishNoCalls tool query (textParts mt) [] []).1 = _
  rw [finishNoCalls_success tool query (textParts mt) [] [] kw hfires hfind herr]
  rfl

/-- Witness for `claim5_fallback_trigger`: the specification's own test
vector — `"how many wheat crops are there"` with a tool stub returning 3
non-empty lines and a model stub returning no function calls yields
exactly `"There are 3 wheat crops."`. -/
theorem claim5_fallback_trigger_witness :
    process_query (fun _ _ => ⟨false, "l1\nl2\nl3"⟩)
        "how many wheat crops are there" [⟨[.text "Could you clarify?"]⟩] =
      .ok ⟨[⟨"model", [.text systemInstruction]⟩,
        ⟨"user", [.text "how many wheat crops are there"]⟩,
        ⟨"model", [.text "Could you clarify?"]⟩],
        "There are 3 wheat crops.",
        [⟨"get_crop_info", [("crop_type", .str "wheat")], false, true⟩], 1⟩ ∧
      (∃ c ∈ ([⟨"get_crop_info", [("crop_type", JVal.str "wheat")], false,
          true⟩] : List CallRec), c.fromFallback = true) ∧
      ("There are 3 wheat crops." : String) =
        "There are " ++ toString (nonEmptyLineCount "l1\nl2\nl3") ++
          " " ++ "wheat" ++ " crops." := by
  refine ⟨rfl, ?_, ?_⟩
  · exact (claim5_fallback_trigger (fun _ _ => ⟨false, "l1\nl2\nl3"⟩)
      "how many wheat crops are there" [⟨[.text "Could you clarify?"]⟩] _
      rfl).1.mpr rfl
  · exact (claim5_fallback_trigger (fun _ _ => ⟨false, "l1\nl2\nl3"⟩)
      "how many wheat crops are there" [⟨[.text "Could you clarify?"]⟩] _
      rfl).2.2 ⟨[.text "Could you clarify?"]⟩ [] "wheat" rfl rfl rfl rfl rfl

/-! ### The zero-row sentinel counts as one line (claim C9) -/

theorem crop_info_sentinel_count (db : List CropRow) (ct : String)
    (hct : ct ∈ fallbackKeywords)
    (hempty : (db.filter (fun row => row.cropType == ct)).isEmpty = true) :
    nonEmptyLineCount (get_crop_info db ct) = 1 := by
  rw [show get_crop_info db ct = "No information found for crop type: " ++ ct from by
    rw [get_crop_info]
    simp only [hempty]
    rfl]
  simp only [fallbackKeywords, List.mem_cons, List.not_mem_nil, or_false] at hct
  rcases hct with rfl | rfl
  · rfl
  · rfl

/-- C9 (implicit): on the canonical crop-count path the synthesized count
is never 0.  When `get_crop_info` finds zero matching rows it returns the
single-line `"No information found for crop type: ..."` sentinel, whose
non-empty-line count is 1, so a fallback-triggered query over a crop type
with no rows answers `"There are 1 {entity} crops."`. -/
theorem claim9_sentinel_count_one :
    (∀ (db : List CropRow) (ct : String), ct ∈ fallbackKeywords →
      (db.filter (fun row => row.cropType == ct)).isEmpty = true →
      nonEmptyLineCount (get_crop_info db ct) = 1) ∧
    (∀ (db : List CropRow) (query : String) (mt : ModelTurn)
      (stubs : List ModelTurn) (r : RunResult) (kw : String),
      functionCalls mt = [] →
      pyIn "how many" (pyLower query) = true →
      fallbackKeywords.find? (fun crop => pyIn crop (pyLower query)) = some kw →
      (db.filter (fun row => row.cropType == kw)).isEmpty = true →
      process_query (dbOracle db) query (mt :: stubs) = .ok r →
      r.output = "There are 1 " ++ kw ++ " crops.") := by
  refine ⟨crop_info_sentinel_count, ?_⟩
  intro db query mt stubs r kw hnc hhow hfind hempty h
  have hfires : (pyIn "how many" (pyLower query) &&
      fallbackKeywords.any (fun crop => pyIn crop (pyLower query))) = true := by
    rw [Bool.and_eq_true]
    refine ⟨hhow, List.any_eq_true.mpr ?_⟩
    have hp := List.find?_some hfind
    exact ⟨kw, List.mem_of_find?_eq_some hfind, hp⟩
  have hcount := crop_info_sentinel_count db kw
    (List.mem_of_find?_eq_some hfind) hempty
  have hfc : finishNoCalls (dbOracle db) query (textParts mt) [] [] =
      ([] ++ ["There are " ++ toString (nonEmptyLineCount (get_crop_info db kw)) ++
        " " ++ kw ++ " crops."],
       [] ++ [⟨"get_crop_info", [("crop_type", .str kw)], false, true⟩]) := by
    rw [finishNoCalls, if_pos hfires, hfind]
    rfl
  simp only [process_query, runLoop, hnc, Except.ok.injEq] at h
  subst h
  show pyJoin "\n" (finishNoCalls (dbOracle db) query (textParts mt) [] []).1 = _
  rw [hfc, hcount]
  rfl

/-- Witness for `claim9_sentinel_count_one`: a crops table with one corn
row and no wheat rows answers a wheat count query with
`"There are 1 wheat crops."`. -/
theorem claim9_sentinel_count_one_witness :
    process_query (dbOracle [⟨7, 4, "corn", "2024-05-01"⟩])
        "how many wheat crops are there" [⟨[.text "?"]⟩] =
      .ok ⟨[⟨"model", [.text systemInstruction]⟩,
        ⟨"user", [.text "how many wheat crops are there"]⟩,
        ⟨"model", [.text "?"]⟩],
        "There are 1 wheat crops.",
        [⟨"get_crop_info", [("crop_type", .str "wheat")], false, true⟩], 1⟩ ∧
      ("There are 1 wheat crops." : String) =
        "There are 1 " ++ "wheat" ++ " crops." := by
  refine ⟨rfl, ?_⟩
  exact claim9_sentinel_count_one.2 [⟨7, 4, "corn", "2024-05-01"⟩]
    "how many wheat crops are there" ⟨[.text "?"]⟩ [] _ "wheat"
    rfl rfl rfl rfl rfl

end MCPDemo
